import Mathlib

/-!
# theta-eth-rpc-adaptor: `eth_getLogs` and `eth_getTransactionByHash`

A shallow embedding of the two handlers of package `ethrpc`
(`rpc/ethrpc/eth_get_logs.go`, `rpc/ethrpc/eth_get_transaction_by_hash.go`).

Conventions of the embedding

* Go byte arrays (`tcommon.Hash`, `tcommon.Address`) are byte lists of a fixed
  length, Go slices are lists, and a slice expression is checked against the
  length of the list.
* Go `uint64` values are natural numbers; the only place where the source can
  overflow (the height counter `h++`) is reduced modulo `2 ^ 64`.
* A Go function body either returns or panics (`Exec`).  A Go `error` result is
  an `Option Error`, `none` being `nil`.
* The native chain is a parameter (`ThetaRPC` for `GetLogs`, `ThetaTxRPC` for
  `GetTransactionByHash`): it answers every request with a value or with a
  failure.
* Go `*big.Int` amounts are integers, taken as non-nil; `(*big.Int).Uint64()`
  keeps the low 64 bits.
* Functions of other packages that the handlers call (`tcommon.HexToHash`,
  `common.Int2hex2str`, `hexutil.EncodeUint64`, `hex.EncodeToString`,
  `common.GetHeightByTag`) and the transaction kind constants of package
  `types` are parameters (`Lib`); `common.GetCurrentHeight` and the block
  requests are answered by the native chain (`ThetaRPC`).
* `logger.*` calls and `time.Sleep` have no effect on the values computed and
  are left out, except that evaluating the arguments of a logger call may panic.
-/

namespace Ethrpc

/-! ## Data model -/

/-- One byte. -/
abbrev Byte := Fin 256

/-- Go `tcommon.Hash`, an array of 32 bytes. -/
structure Hash where
  bytes : List Byte
  size : bytes.length = 32
deriving DecidableEq

/-- Go `tcommon.Address`, an array of 20 bytes. -/
structure Address where
  bytes : List Byte
  size : bytes.length = 20
deriving DecidableEq

/-- The zero value `tcommon.Hash{}`. -/
def Hash.zero : Hash := ⟨List.replicate 32 0, by simp⟩

/-- The zero value `tcommon.Address{}`. -/
def Address.zero : Address := ⟨List.replicate 20 0, by simp⟩

/-- The largest `uint64`, Go `math.MaxUint64`. -/
def MaxUint64 : Nat := 2 ^ 64 - 1

/-- A decoded JSON value, the dynamic type behind a Go `interface{}` produced by
`encoding/json`.  The payload of a number is never inspected by the handlers. -/
inductive JSONValue where
  | null
  | bool (b : Bool)
  | number (n : Int)
  | string (s : String)
  | array (items : List JSONValue)
  | object (fields : List (String × JSONValue))

/-- The run-time panics the handlers can raise. -/
inductive Panic where
  /-- A field is read through a nil pointer. -/
  | nilDereference
  /-- A type assertion `x.(T)` without the comma-ok form meets another type. -/
  | typeAssertion
  /-- An index expression `a[i]` with `i` out of range. -/
  | indexOutOfRange
  /-- A slice expression `a[lo:hi]` with bounds out of range. -/
  | sliceOutOfRange
deriving DecidableEq, Repr

/-- The error values the handlers build, one constructor per message. -/
inductive Error where
  /-- The message `invalid args.Topics type: %v` with `args.Topics`. -/
  | invalidTopics (topics : List JSONValue)
  /-- The message `failed to retrieve block %v` with the block hash. -/
  | failedBlock (hash : Hash)
  /-- The message `failed to retrieve blocks from %v to %v`. -/
  | failedBlocks (blockStart blockEnd : Nat)
  /-- An error handed back unchanged by a callee of another package. -/
  | upstream (msg : String)
  /-- The message `could not find hash for tx`. -/
  | notFound

/-- The way a Go function body ends: it returns a value or it panics. -/
inductive Exec (α : Type) where
  | ret (a : α)
  | panic (p : Panic)

/-- Sequencing of two computations that may panic. -/
def Exec.bind {α β : Type} (x : Exec α) (f : α → Exec β) : Exec β :=
  match x with
  | .ret a => f a
  | .panic p => .panic p

/-- Apply a function to the value returned, keeping a panic. -/
def Exec.map {α β : Type} (f : α → β) (x : Exec α) : Exec β :=
  match x with
  | .ret a => .ret (f a)
  | .panic p => .panic p

/-- A native log entry (`types.Log`), as far as the handlers read it. -/
structure Log where
  Topics : List Hash
  Data : List Byte

/-- A native receipt (`tx.Receipt`), as far as the handlers read it. -/
structure Receipt where
  ContractAddress : Address
  Logs : List Log

/-- A transaction of a fetched block (`trpc.Tx`); `Receipt` is a pointer and
may be nil.  The Go field `Type` is named `Type_`, as `Type` is reserved. -/
structure Tx where
  Type_ : Nat
  Hash : Hash
  Receipt : Option Receipt

/-- A fetched block (`trpc.GetBlockResultInner`), as far as the handlers read
it. -/
structure GetBlockResultInner where
  Height : Nat
  Hash : Hash
  Txs : List Tx

/-- The arguments of `eth_getLogs` (`EthGetLogsArgs`). -/
structure EthGetLogsArgs where
  FromBlock : String
  ToBlock : String
  Address : Address
  Topics : List JSONValue
  Blockhash : Hash

/-- One record of the `eth_getLogs` result (`EthGetLogsResult`). -/
structure EthGetLogsResult where
  Removed : Bool
  LogIndex : String
  TransactionIndex : String
  TransactionHash : Hash
  BlockHash : Hash
  BlockNumber : String
  Address : Address
  Data : String
  Topics : List Hash
deriving DecidableEq

/-- Functions and constants of other packages used by the handlers, taken as
parameters: `tcommon.HexToHash`, `common.Int2hex2str`, `hexutil.EncodeUint64`,
`hex.EncodeToString`, `common.GetHeightByTag`, and the transaction kinds
`types.TxSend` and `types.TxSmartContract`. -/
structure Lib where
  HexToHash : String → Hash
  Int2hex2str : Nat → String
  EncodeUint64 : Nat → String
  EncodeToString : List Byte → String
  GetHeightByTag : String → Nat
  TxSend : Nat
  TxSmartContract : Nat

/-- The native chain as the handler sees it through
`common.HandleThetaRPCResponse`: `none` stands for a non-nil error.
`GetBlock i hash` answers the request of attempt `i` (counted from 0);
`GetBlockByHeight i n h` answers the request for height `h` that is the
`n`-th request (counted from 0) of attempt `i`. -/
structure ThetaRPC where
  GetCurrentHeight : Except String Nat
  GetBlock : Nat → Hash → Option GetBlockResultInner
  GetBlockByHeight : Nat → Nat → Nat → Option GetBlockResultInner

/-! ## `GetLogs`: topic normalization (lines 58-72) -/

/-- The inner loop `for _, item := range val.([]interface{})`: every item is
asserted to be a string, which panics on any other type. -/
def nestedTopics (lib : Lib) : List JSONValue → List Hash → Exec (List Hash)
  | [], topics => .ret topics
  | .string item :: rest, topics => nestedTopics lib rest (topics ++ [lib.HexToHash item])
  | _ :: _, _ => .panic .typeAssertion

/-- The loop `for _, val := range args.Topics` over the elements still to be
visited, with the topics collected so far.  The `default` case returns the
error. -/
def topicLoop (lib : Lib) (argsTopics : List JSONValue) :
    List JSONValue → List Hash → Exec (Except Error (List Hash))
  | [], topics => .ret (.ok topics)
  | .string val :: rest, topics =>
    topicLoop lib argsTopics rest (topics ++ [lib.HexToHash val])
  | .array val :: rest, topics =>
    match nestedTopics lib val topics with
    | .ret topics => topicLoop lib argsTopics rest topics
    | .panic p => .panic p
  | _ :: _, _ => .ret (.error (.invalidTopics argsTopics))

/-- Topic normalization of `GetLogs`, starting from `var topics []tcommon.Hash`. -/
def normalizeTopics (lib : Lib) (argsTopics : List JSONValue) : Exec (Except Error (List Hash)) :=
  topicLoop lib argsTopics argsTopics []

/-! ## `GetLogs`: block fetching with retry (lines 89-172) -/

/-- The state in which a retry loop is left.  `value` is the variable the loop
fills (`block`, respectively `blocks`).  The other fields are bookkeeping that
the source does not hold: `broke` tells that the loop was left through `break`,
`attempts` counts the passes through the loop body, `fetches` the block
requests sent to the native chain. -/
structure LoopState (β : Type) where
  value : β
  broke : Bool
  attempts : Nat
  fetches : Nat

/-- The way a retry loop ends: through the `return` inside its body, which
hands back `[]EthGetLogsResult{}` and the error, or by falling out of the loop
(by `break` or because `i < maxRetry` fails). -/
inductive LoopExit (β : Type) where
  | returned (err : Error) (attempts fetches : Nat)
  | done (state : LoopState β)

/-- The hash-mode loop `for i := 0; i < maxRetry; i++` (lines 95-109), entered
at `i`.  `block` is declared by `var block trpc.GetBlockResult`, whose embedded
pointer `GetBlockResultInner` is nil until an attempt succeeds. -/
def retryHash (rpc : ThetaRPC) (Blockhash : Hash) (maxRetry : Nat) (i : Nat) :
    LoopExit (Option GetBlockResultInner) :=
  if i < maxRetry then
    if i = maxRetry then
      .returned (.failedBlock Blockhash) i i
    else
      match rpc.GetBlock i Blockhash with
      | some block => .done ⟨some block, true, i + 1, i + 1⟩
      | none => retryHash rpc Blockhash maxRetry (i + 1)
  else
    .done ⟨none, false, i, i⟩
termination_by maxRetry - i

/-- The height loop `for h := uint64(blockStart); h <= uint64(blockEnd); h++`
(lines 152-164) of attempt `i`, entered at height `h` after `n` requests, with
the block list `blocks`.  It yields `success`, the block list and the number of
requests sent.  The counter `h` is a `uint64`, so `h++` wraps around; the loop
need not end, and `none` tells that `fuel` iterations did not suffice. -/
def fetchRange (rpc : ThetaRPC) (i : Nat) (blockEnd : Nat) :
    Nat → Nat → Nat → List (Option GetBlockResultInner) →
      Option (Bool × List (Option GetBlockResultInner) × Nat)
  | 0, _, _, _ => none
  | fuel + 1, n, h, blocks =>
    if h ≤ blockEnd then
      match rpc.GetBlockByHeight i n h with
      | none => some (false, [], n + 1)
      | some block =>
        fetchRange rpc i blockEnd fuel (n + 1) ((h + 1) % 2 ^ 64) (blocks ++ [some block])
    else
      some (true, blocks, n)

/-- The range-mode loop `for i := 0; i < maxRetry; i++` (lines 146-171), entered
at `i` with the block list `blocks` after `fetches` requests. -/
def retryRange (rpc : ThetaRPC) (blockStart blockEnd maxRetry fuel : Nat) (i : Nat)
    (blocks : List (Option GetBlockResultInner)) (fetches : Nat) :
    Option (LoopExit (List (Option GetBlockResultInner))) :=
  if i < maxRetry then
    if i = maxRetry then
      some (.returned (.failedBlocks blockStart blockEnd) i fetches)
    else
      match fetchRange rpc i blockEnd fuel 0 blockStart blocks with
      | none => none
      | some (success, blocks, n) =>
        if success then
          some (.done ⟨blocks, true, i + 1, fetches + n⟩)
        else
          retryRange rpc blockStart blockEnd maxRetry fuel (i + 1) blocks (fetches + n)
  else
    some (.done ⟨blocks, false, i, fetches⟩)
termination_by maxRetry - i

/-! ## `GetLogs`: range resolution (lines 118-141) -/

/-- Resolution of one end of the range (lines 118-124 for `fromBlock`, lines
126-132 for `toBlock`). -/
def resolveTag (lib : Lib) (currentHeight : Nat) (tag : String) : Nat :=
  if tag ≠ "" then
    if lib.GetHeightByTag tag = MaxUint64 then currentHeight else lib.GetHeightByTag tag
  else
    currentHeight

/-- The swap `if blockStart > blockEnd` (lines 134-138). -/
def swapRange (blockStart blockEnd : Nat) : Nat × Nat :=
  if blockStart > blockEnd then (blockEnd, blockStart) else (blockStart, blockEnd)

/-- The statement `if blockStart >= 2 { blockStart -= 2 }` (lines 139-141). -/
def finalityMargin (blockStart : Nat) : Nat :=
  if blockStart ≥ 2 then blockStart - 2 else blockStart

/-- The pair `(blockStart, blockEnd)` with which the range-mode loop is
entered (lines 118-141). -/
def resolveRange (lib : Lib) (currentHeight : Nat) (args : EthGetLogsArgs) : Nat × Nat :=
  let swapped := swapRange (resolveTag lib currentHeight args.FromBlock)
    (resolveTag lib currentHeight args.ToBlock)
  (finalityMargin swapped.1, swapped.2)

/-! ## `GetLogs`: log matching (lines 175-235) -/

/-- The record built for one log (lines 206-215 and 221-230). -/
def newResult (lib : Lib) (block : GetBlockResultInner) (txIndex : Nat) (tx : Tx)
    (receipt : Receipt) (logIndex : Nat) (log : Log) : EthGetLogsResult where
  Removed := false
  LogIndex := lib.Int2hex2str logIndex
  TransactionIndex := lib.Int2hex2str txIndex
  TransactionHash := tx.Hash
  BlockHash := block.Hash
  BlockNumber := lib.EncodeUint64 block.Height
  Address := receipt.ContractAddress
  Data := "0x" ++ lib.EncodeToString log.Data
  Topics := log.Topics

/-- The body of `for logIndex, log := range receipt.Logs` (lines 200-232). -/
def matchLog (lib : Lib) (topics : List Hash) (block : GetBlockResultInner) (txIndex : Nat)
    (tx : Tx) (receipt : Receipt) (result : List EthGetLogsResult) (logIndex : Nat) (log : Log) :
    List EthGetLogsResult :=
  if topics.length > 0 then
    log.Topics.foldl
      (fun result topic =>
        topics.foldl
          (fun result t =>
            if topic = t then
              result ++ [newResult lib block txIndex tx receipt logIndex log]
            else result)
          result)
      result
  else
    result ++ [newResult lib block txIndex tx receipt logIndex log]

/-- The body of `for txIndex, tx := range block.Txs` (lines 178-233). -/
def matchTx (lib : Lib) (address : Address) (topics : List Hash) (block : GetBlockResultInner)
    (result : List EthGetLogsResult) (txIndex : Nat) (tx : Tx) : List EthGetLogsResult :=
  if tx.Type_ ≠ lib.TxSmartContract then result
  else
    match tx.Receipt with
    | none => result
    | some receipt =>
      if address ≠ Address.zero ∧ receipt.ContractAddress ≠ address then result
      else
        receipt.Logs.enum.foldl
          (fun result entry => matchLog lib topics block txIndex tx receipt result entry.1 entry.2)
          result

/-- The body of `for _, block := range blocks` for a non-nil block. -/
def matchBlock (lib : Lib) (address : Address) (topics : List Hash)
    (result : List EthGetLogsResult) (block : GetBlockResultInner) : List EthGetLogsResult :=
  block.Txs.enum.foldl (fun result entry => matchTx lib address topics block result entry.1 entry.2)
    result

/-- The loop `for _, block := range blocks` (lines 175-235).  The entries are
pointers; reading `block.Txs` through a nil pointer panics. -/
def matchBlocks (lib : Lib) (address : Address) (topics : List Hash) :
    List (Option GetBlockResultInner) → List EthGetLogsResult → Exec (List EthGetLogsResult)
  | [], result => .ret result
  | none :: _, _ => .panic .nilDereference
  | some block :: rest, result =>
    matchBlocks lib address topics rest (matchBlock lib address topics result block)

/-! ## `GetLogs` -/

/-- A finished call of `GetLogs`: how it ended, and bookkeeping of the
requests it sent to the native chain (current-height queries, passes through a
retry loop, block requests). -/
structure GetLogsRun where
  exit : Exec (List EthGetLogsResult × Option Error)
  heightQueries : Nat
  attempts : Nat
  fetches : Nat

/-- The handler `GetLogs` (lines 50-241).  `none` tells that `fuel` iterations
of the height loop did not suffice. -/
def GetLogs (lib : Lib) (rpc : ThetaRPC) (fuel : Nat) (args : EthGetLogsArgs) :
    Option GetLogsRun :=
  let result : List EthGetLogsResult := []
  match normalizeTopics lib args.Topics with
  | .panic p => some ⟨.panic p, 0, 0, 0⟩
  | .ret (.error err) => some ⟨.ret (result, some err), 0, 0, 0⟩
  | .ret (.ok topics) =>
    let maxRetry := 5
    let blocks : List (Option GetBlockResultInner) := []
    if args.Blockhash ≠ Hash.zero then
      match retryHash rpc args.Blockhash maxRetry 0 with
      | .returned err attempts fetches => some ⟨.ret ([], some err), 0, attempts, fetches⟩
      | .done state =>
        some ⟨(matchBlocks lib args.Address topics (blocks ++ [state.value]) result).map
          (fun result => (result, none)), 0, state.attempts, state.fetches⟩
    else
      match rpc.GetCurrentHeight with
      | .error err => some ⟨.ret (result, some (.upstream err)), 1, 0, 0⟩
      | .ok currentHeight =>
        match retryRange rpc (resolveRange lib currentHeight args).1
            (resolveRange lib currentHeight args).2 maxRetry fuel 0 blocks 0 with
        | none => none
        | some (.returned err attempts fetches) =>
          some ⟨.ret ([], some err), 1, attempts, fetches⟩
        | some (.done state) =>
          some ⟨(matchBlocks lib args.Address topics state.value result).map
            (fun result => (result, none)), 1, state.attempts, state.fetches⟩

/-! ## `GetRSVfromSignature` (lines 105-110 of `eth_get_transaction_by_hash.go`) -/

/-- Modelled from the spec: the record type `common.EthGetTransactionResult` is
declared in package `common`, whose source is not at hand.  The fields are the
ones `GetTransactionByHash` assigns; R and S are 32-byte values and V is a
single byte promoted to an integer. -/
structure EthGetTransactionResult where
  BlockHash : Hash
  BlockHeight : Nat
  TxHash : Hash
  TransactionIndex : Nat
  From : Address
  To : Address
  Gas : Nat
  GasPrice : Nat
  Value : Nat
  Input : List Byte
  R : Hash
  S : Hash
  V : Nat
deriving DecidableEq

/-- The zero value `common.EthGetTransactionResult{}`. -/
def EthGetTransactionResult.zero : EthGetTransactionResult where
  BlockHash := Hash.zero
  BlockHeight := 0
  TxHash := Hash.zero
  TransactionIndex := 0
  From := Address.zero
  To := Address.zero
  Gas := 0
  GasPrice := 0
  Value := 0
  Input := []
  R := Hash.zero
  S := Hash.zero
  V := 0

/-- Go slice expression `data[lo:hi]`. -/
def slice (data : List Byte) (lo hi : Nat) : Exec (List Byte) :=
  if lo ≤ hi ∧ hi ≤ data.length then .ret ((data.take hi).drop lo) else .panic .sliceOutOfRange

/-- Go index expression `data[i]`. -/
def index (data : List Byte) (i : Nat) : Exec Byte :=
  match data[i]? with
  | some b => .ret b
  | none => .panic .indexOutOfRange

/-- Go builtin `copy(dst, src)` on byte lists: the first
`min (len dst) (len src)` elements of `dst` are overwritten. -/
def copy (dst src : List Byte) : List Byte :=
  src.take dst.length ++ dst.drop src.length

/-- The statement `copy(dst[:], src)` for a 32-byte array `dst`. -/
def Hash.copyFrom (dst : Hash) (src : List Byte) : Hash :=
  ⟨copy dst.bytes src, by simp only [copy, List.length_append, List.length_take,
    List.length_drop, dst.size]; omega⟩

/-- The function `GetRSVfromSignature`: the updated record behind the pointer
`txResult` and the error returned, which is always nil. -/
def GetRSVfromSignature (data : List Byte) (txResult : EthGetTransactionResult) :
    Exec (EthGetTransactionResult × Option Error) :=
  (slice data 0 32).bind fun r =>
  (slice data 32 64).bind fun s =>
  (index data 64).bind fun v =>
  .ret ({ txResult with R := txResult.R.copyFrom r, S := txResult.S.copyFrom s, V := v.val },
    none)

/-! ## `GetTransactionByHash` (lines 18-79) and `GetTransactionIndex` (lines 81-103) -/

/-- Go `(*big.Int).Uint64()`: the low 64 bits of the absolute value, which is
the value itself when it fits a `uint64`. -/
def bigUint64 (x : Int) : Nat := x.natAbs % 2 ^ 64

/-- Native coin amounts (`types.Coins`); both are `*big.Int` and taken as
non-nil. -/
structure Coins where
  ThetaWei : Int
  TFuelWei : Int

/-- An input of a native transaction (`types.TxInput`); `Signature` holds the
bytes that `Signature.ToBytes()` returns. -/
structure TxInput where
  Address : Address
  Coins : Coins
  Sequence : Nat
  Signature : List Byte

/-- An output of a native transaction (`types.TxOutput`). -/
structure TxOutput where
  Address : Address
  Coins : Coins

/-- A value-transfer transaction (`types.SendTx`). -/
structure SendTx where
  Fee : Coins
  Inputs : List TxInput
  Outputs : List TxOutput

/-- A smart-contract transaction (`types.SmartContractTx`); `GasLimit` is a
`uint64` and `GasPrice` a `*big.Int`. -/
structure SmartContractTx where
  From : TxInput
  To : TxOutput
  GasLimit : Nat
  GasPrice : Int
  Data : List Byte

/-- The JSON member `transaction` of a response, given by what
`json.Unmarshal` makes of it as a `types.SendTx` and as a
`types.SmartContractTx`. -/
structure RawTransaction where
  asSendTx : SendTx
  asSmartContractTx : SmartContractTx

/-- The response to `theta.GetTransaction`, as far as `parse` reads it;
`transaction` is `none` when `objmap["transaction"]` is nil. -/
structure GetTransactionResponse where
  BlockHash : Hash
  BlockHeight : Nat
  TxHash : Hash
  Type_ : Nat
  transaction : Option RawTransaction

/-- The dynamic value of the interface field `Tx` (`types.Tx`) when it is not
nil. -/
inductive TxValue where
  | sendTx (tx : SendTx)
  | smartContractTx (tx : SmartContractTx)

/-- The record `trpc.GetTransactionResult`, as far as the handler reads it.
`Tx` is an interface value and `none` stands for nil. -/
structure GetTransactionResult where
  BlockHash : Hash
  BlockHeight : Nat
  TxHash : Hash
  Type_ : Nat
  Tx : Option TxValue

/-- An entry of the transaction list of a block (`common.Tx`), as far as
`GetTransactionIndex` reads it. -/
structure CommonTx where
  Hash : Hash

/-- The native chain as `GetTransactionByHash` and `GetTransactionIndex` see
it.  `GetTransaction` is the outcome of `common.HandleThetaRPCResponse` before
`parse` runs; `GetBlock` is the outcome of `client.Call` and
`json.MarshalIndent` (an error, or the member `transactions` of the result,
`none` when `objmap["transactions"]` is nil). -/
structure ThetaTxRPC where
  GetTransaction : String → Except String GetTransactionResponse
  GetBlock : Hash → Except String (Option (List CommonTx))

/-- The closure `parse` of `GetTransactionByHash` (lines 24-42).  The first
`json.Unmarshal` fills the plain fields and leaves the interface field `Tx`
nil; the member `transaction` is decoded according to the kind. -/
def GetTransactionByHash.parse (lib : Lib) (response : GetTransactionResponse) :
    GetTransactionResult :=
  let trpcResult : GetTransactionResult :=
    ⟨response.BlockHash, response.BlockHeight, response.TxHash, response.Type_, none⟩
  match response.transaction with
  | none => trpcResult
  | some raw =>
    let trpcResult :=
      if trpcResult.Type_ = lib.TxSend then { trpcResult with Tx := some (.sendTx raw.asSendTx) }
      else trpcResult
    let trpcResult :=
      if trpcResult.Type_ = lib.TxSmartContract then
        { trpcResult with Tx := some (.smartContractTx raw.asSmartContractTx) }
      else trpcResult
    trpcResult

/-- Go index expression `l[i]` on a list of any element type. -/
def indexAt {α : Type} (l : List α) (i : Nat) : Exec α :=
  match l[i]? with
  | some x => .ret x
  | none => .panic .indexOutOfRange

/-- The body of the `types.TxSend` branch (lines 54-60), after the type
assertion. -/
def translateSend (tx : SendTx) (result : EthGetTransactionResult) :
    Exec EthGetTransactionResult :=
  (indexAt tx.Inputs 0).bind fun input =>
  let result := { result with From := input.Address }
  (indexAt tx.Outputs 0).bind fun output =>
  let result := { result with To := output.Address }
  let result := { result with Gas := bigUint64 tx.Fee.TFuelWei }
  (indexAt tx.Inputs 0).bind fun input =>
  let result := { result with Value := bigUint64 input.Coins.TFuelWei }
  (indexAt tx.Inputs 0).bind fun input =>
  let data := input.Signature
  (GetRSVfromSignature data result).bind fun out => .ret out.1

/-- The body of the `types.TxSmartContract` branch (lines 63-71), after the
type assertion. -/
def translateSmartContract (tx : SmartContractTx) (result : EthGetTransactionResult) :
    Exec EthGetTransactionResult :=
  let result := { result with From := tx.From.Address }
  let result := { result with To := tx.To.Address }
  let result := { result with GasPrice := bigUint64 tx.GasPrice }
  let result := { result with Gas := tx.GasLimit }
  let result := { result with Value := bigUint64 tx.From.Coins.TFuelWei }
  let result := { result with Input := tx.Data }
  let data := tx.From.Signature
  (GetRSVfromSignature data result).bind fun out => .ret out.1

/-- The dispatch on the kind (lines 52-73).  The type assertions
`Tx.(*types.SendTx)` and `Tx.(*types.SmartContractTx)` panic on a value of the
other type. -/
def translate (lib : Lib) (thetaGetTransactionResult : GetTransactionResult)
    (result : EthGetTransactionResult) : Exec EthGetTransactionResult :=
  match thetaGetTransactionResult.Tx with
  | none => .ret result
  | some value =>
    (if thetaGetTransactionResult.Type_ = lib.TxSend then
      match value with
      | .sendTx tx => translateSend tx result
      | .smartContractTx _ => .panic .typeAssertion
    else .ret result).bind fun result =>
    if thetaGetTransactionResult.Type_ = lib.TxSmartContract then
      match value with
      | .smartContractTx tx => translateSmartContract tx result
      | .sendTx _ => .panic .typeAssertion
    else .ret result

/-- The loop `for i, tx := range txs` of `GetTransactionIndex` (lines 97-101),
entered at position `i`: the position returned, or `none` when the loop
ends. -/
def scanTxs (transactionHash : Hash) : List CommonTx → Nat → Option Nat
  | [], _ => none
  | tx :: rest, i =>
    if tx.Hash = transactionHash then some i else scanTxs transactionHash rest (i + 1)

/-- The function `GetTransactionIndex` (lines 81-103). -/
def GetTransactionIndex (blockHash transactionHash : Hash) (client : ThetaTxRPC) :
    Nat × Option Error :=
  match client.GetBlock blockHash with
  | .error msg => (0, some (.upstream msg))
  | .ok transactions =>
    let txs : List CommonTx :=
      match transactions with
      | some decoded => decoded
      | none => []
    match scanTxs transactionHash txs 0 with
    | some i => (i, none)
    | none => (0, some .notFound)

/-- The handler `GetTransactionByHash` (lines 18-79). -/
def GetTransactionByHash (lib : Lib) (client : ThetaTxRPC) (hashStr : String) :
    Exec (EthGetTransactionResult × Option Error) :=
  let result := EthGetTransactionResult.zero
  match client.GetTransaction hashStr with
  | .error msg => .ret (result, some (.upstream msg))
  | .ok response =>
    let thetaGetTransactionResult := GetTransactionByHash.parse lib response
    let result := { result with BlockHash := thetaGetTransactionResult.BlockHash }
    let result := { result with BlockHeight := thetaGetTransactionResult.BlockHeight }
    let result := { result with TxHash := thetaGetTransactionResult.TxHash }
    (translate lib thetaGetTransactionResult result).bind fun result =>
    let found := GetTransactionIndex result.BlockHash result.TxHash client
    .ret ({ result with TransactionIndex := found.1 }, found.2)

/-! ## Sample inputs -/

/-- A hash with 31 zero bytes and the last byte `b`. -/
def sampleHash (b : Byte) : Hash := ⟨List.replicate 31 0 ++ [b], by simp⟩

/-- An address with 19 zero bytes and the last byte `b`. -/
def sampleAddress (b : Byte) : Address := ⟨List.replicate 19 0 ++ [b], by simp⟩

/-- A sample instance of the parameters: a topic string decodes to the hash
that ends in the length of the string, encoders yield fixed texts, the tag
`earliest` resolves to height 1 and any other tag is unresolvable. -/
def sampleLib : Lib where
  HexToHash := fun s => sampleHash (Fin.ofNat s.length)
  Int2hex2str := fun _ => "0x"
  EncodeUint64 := fun _ => "0x"
  EncodeToString := fun _ => ""
  GetHeightByTag := fun tag => if tag = "earliest" then 1 else MaxUint64
  TxSend := 2
  TxSmartContract := 7

/-- A well-formed element of a topic filter: a single string or a nested list
of strings. -/
inductive TopicElem where
  | single (s : String)
  | nested (items : List String)

/-- The JSON value of a well-formed filter element. -/
def TopicElem.toJSON : TopicElem → JSONValue
  | .single s => .string s
  | .nested items => .array (items.map .string)

/-- The strings of a well-formed filter element, in order. -/
def TopicElem.strings : TopicElem → List String
  | .single s => [s]
  | .nested items => items

/-- Restriction of the records of a finished call to the ones with address
`address`; everything else is kept. -/
def GetLogsRun.restrictTo (address : Address) (run : GetLogsRun) : GetLogsRun :=
  { run with exit := run.exit.map (fun out => (out.1.filter (fun r => r.Address = address), out.2)) }

/-- The 65-byte signature blob of 32 zero bytes, 32 bytes `0x11` and a final
byte `0x05`. -/
def sampleSignature : List Byte :=
  List.replicate 32 0 ++ List.replicate 32 0x11 ++ [0x05]

/-- Arguments of a range-mode call without filters. -/
def sampleArgs : EthGetLogsArgs := ⟨"", "", Address.zero, [], Hash.zero⟩

/-- A native chain at height 10 on which every block request fails. -/
def failingRPC : ThetaRPC := ⟨.ok 10, fun _ _ => none, fun _ _ _ => none⟩

/-- A log with three topics and no data. -/
def sampleLog : Log := ⟨[sampleHash 4, sampleHash 5, sampleHash 9], []⟩

/-- A receipt of the contract at `sampleAddress 1` with the one log `sampleLog`. -/
def sampleReceipt : Receipt := ⟨sampleAddress 1, [sampleLog]⟩

/-- A smart-contract transaction (kind 7 of `sampleLib`) with `sampleReceipt`. -/
def sampleTx : Tx := ⟨7, sampleHash 2, some sampleReceipt⟩

/-- A block at height 10 with the one transaction `sampleTx`. -/
def sampleBlock : GetBlockResultInner := ⟨10, sampleHash 3, [sampleTx]⟩

/-- A native chain at height 10 that answers every block request with
`sampleBlock`. -/
def servingRPC : ThetaRPC := ⟨.ok 10, fun _ _ => some sampleBlock, fun _ _ _ => some sampleBlock⟩

/-- A hash-mode call for the block `sampleHash 3` whose filter names the topic
`0xaa` twice; `sampleLib` decodes it to `sampleHash 4` both times. -/
def repeatedTopicArgs : EthGetLogsArgs :=
  ⟨"", "", Address.zero, [.string "0xaa", .string "0xaa"], sampleHash 3⟩

/-- A hash-mode call for the block `sampleHash 3` without filters. -/
def sampleHashArgs : EthGetLogsArgs := ⟨"", "", Address.zero, [], sampleHash 3⟩

/-- A native chain at height 10 on which every block request of the first four
attempts fails and every later request is answered with `sampleBlock` at the
height asked for. -/
def flakyRPC : ThetaRPC :=
  ⟨.ok 10, fun i _ => if i < 4 then none else some sampleBlock,
    fun i _ h => if i < 4 then none else some { sampleBlock with Height := h }⟩

/-- The records the specification asks for when neither filter is set: one
record per log of every smart-contract transaction with a receipt, in block
order, then transaction order, then log order, with the positions of the log
and of the transaction encoded. -/
def allLogRecords (lib : Lib) (fetched : List GetBlockResultInner) : List EthGetLogsResult :=
  fetched.flatMap fun block =>
    block.Txs.enum.flatMap fun txEntry =>
      if txEntry.2.Type_ = lib.TxSmartContract then
        match txEntry.2.Receipt with
        | none => []
        | some receipt =>
          receipt.Logs.enum.map fun logEntry =>
            { Removed := false
              LogIndex := lib.Int2hex2str logEntry.1
              TransactionIndex := lib.Int2hex2str txEntry.1
              TransactionHash := txEntry.2.Hash
              BlockHash := block.Hash
              BlockNumber := lib.EncodeUint64 block.Height
              Address := receipt.ContractAddress
              Data := "0x" ++ lib.EncodeToString logEntry.2.Data
              Topics := logEntry.2.Topics }
      else []

/-- A smart-contract transaction without a receipt. -/
def sampleTxNoReceipt : Tx := ⟨7, sampleHash 6, none⟩

/-- A value-transfer transaction (kind 2 of `sampleLib`) that carries a
receipt. -/
def sampleTxOtherKind : Tx := ⟨2, sampleHash 7, some sampleReceipt⟩

/-- A native chain on which the current-height query fails, every request by
hash is answered with `sampleBlock` and every request by height fails. -/
def hashOnlyRPC : ThetaRPC := ⟨.error "down", fun _ _ => some sampleBlock, fun _ _ _ => none⟩

/-- An input of `sampleAddress 1` with the coin amount `amount` and the
signature bytes `signature`. -/
def sampleInput (amount : Int) (signature : List Byte) : TxInput :=
  ⟨sampleAddress 1, ⟨0, amount⟩, 1, signature⟩

/-- An output to `sampleAddress 2`. -/
def sampleOutput : TxOutput := ⟨sampleAddress 2, ⟨0, 5⟩⟩

/-- A value-transfer transaction with the fee 3, one input and one output. -/
def sampleSendTx (amount : Int) (signature : List Byte) : SendTx :=
  ⟨⟨0, 3⟩, [sampleInput amount signature], [sampleOutput]⟩

/-- A smart-contract transaction with gas limit 21000 and two bytes of data. -/
def sampleSmartContractTx (price amount : Int) (signature : List Byte) : SmartContractTx :=
  ⟨sampleInput amount signature, sampleOutput, 21000, price, [1, 2]⟩

/-- A response for the transaction `sampleHash 2` of kind `kind` in the block
`sampleHash 3` at height 10. -/
def sampleResponse (kind : Nat) (price amount : Int) (signature : List Byte) :
    GetTransactionResponse :=
  ⟨sampleHash 3, 10, sampleHash 2, kind,
    some ⟨sampleSendTx amount signature, sampleSmartContractTx price amount signature⟩⟩

/-- A native chain that answers `theta.GetTransaction` with `sampleResponse` and
`theta.GetBlock` with a block whose second transaction is `sampleHash 2`. -/
def sampleClient (kind : Nat) (price amount : Int) (signature : List Byte) : ThetaTxRPC :=
  ⟨fun _ => .ok (sampleResponse kind price amount signature),
    fun _ => .ok (some [⟨sampleHash 1⟩, ⟨sampleHash 2⟩, ⟨sampleHash 2⟩])⟩

/-! ## Topic normalization: theorems -/

theorem nestedTopics_strings (lib : Lib) (items : List String) (topics : List Hash) :
    nestedTopics lib (items.map .string) topics = .ret (topics ++ items.map lib.HexToHash) := by
  induction items generalizing topics with
  | nil => simp [nestedTopics]
  | cons s rest ih => simp [nestedTopics, ih]

theorem topicLoop_wellFormed (lib : Lib) (argsTopics : List JSONValue) (elems : List TopicElem)
    (topics : List Hash) :
    topicLoop lib argsTopics (elems.map TopicElem.toJSON) topics
      = .ret (.ok (topics ++ (elems.flatMap TopicElem.strings).map lib.HexToHash)) := by
  induction elems generalizing topics with
  | nil => simp [topicLoop]
  | cons e rest ih =>
    cases e with
    | single s => simp [TopicElem.toJSON, TopicElem.strings, topicLoop, ih]
    | nested items =>
      simp [TopicElem.toJSON, TopicElem.strings, topicLoop, nestedTopics_strings, ih]

/-- C7: a flat list of N hash strings is normalized to exactly N topics, the
i-th being the decoded i-th string, and a list of strings and nested lists of
strings is normalized to the decoded strings of its elements, flattened in
their original order. -/
theorem normalizeTopics_flattens (lib : Lib) :
    (∀ strs : List String,
      normalizeTopics lib (strs.map .string) = .ret (.ok (strs.map lib.HexToHash))
        ∧ (strs.map lib.HexToHash).length = strs.length
        ∧ ∀ i : Nat, (strs.map lib.HexToHash)[i]? = (strs[i]?).map lib.HexToHash)
    ∧ (∀ elems : List TopicElem,
      normalizeTopics lib (elems.map TopicElem.toJSON)
        = .ret (.ok ((elems.flatMap TopicElem.strings).map lib.HexToHash))) := by
  have key : ∀ elems : List TopicElem,
      normalizeTopics lib (elems.map TopicElem.toJSON)
        = .ret (.ok ((elems.flatMap TopicElem.strings).map lib.HexToHash)) := by
    intro elems
    simpa [normalizeTopics] using topicLoop_wellFormed lib _ elems []
  refine ⟨fun strs => ⟨?_, by simp, ?_⟩, key⟩
  · have e : (strs.map TopicElem.single).flatMap TopicElem.strings = strs := by
      induction strs with
      | nil => rfl
      | cons s rest ih => simpa [TopicElem.strings] using ih
    have h := key (strs.map TopicElem.single)
    rw [e] at h
    simpa [List.map_map, Function.comp_def, TopicElem.toJSON] using h
  · intro i
    exact List.getElem?_map lib.HexToHash strs i

theorem topicLoop_append_invalid (lib : Lib) (argsTopics : List JSONValue)
    (pre : List TopicElem) (bad : JSONValue) (post : List JSONValue) (topics : List Hash)
    (hstring : ∀ s, bad ≠ .string s) (harray : ∀ items, bad ≠ .array items) :
    topicLoop lib argsTopics (pre.map TopicElem.toJSON ++ bad :: post) topics
      = .ret (.error (.invalidTopics argsTopics)) := by
  induction pre generalizing topics with
  | nil =>
    cases bad with
    | string s => exact absurd rfl (hstring s)
    | array items => exact absurd rfl (harray items)
    | null => simp [topicLoop]
    | bool b => simp [topicLoop]
    | number n => simp [topicLoop]
    | object fields => simp [topicLoop]
  | cons e rest ih =>
    cases e with
    | single s => simp [TopicElem.toJSON, topicLoop, ih]
    | nested items => simp [TopicElem.toJSON, topicLoop, nestedTopics_strings, ih]

/-- A filter whose first ill-formed element is at the top level and is neither
a string nor a list makes `GetLogs` return the error of the `default` case
before any request is sent. -/
theorem GetLogs_invalid_topLevel (lib : Lib) (rpc : ThetaRPC) (fuel : Nat) (args : EthGetLogsArgs)
    (pre : List TopicElem) (bad : JSONValue) (post : List JSONValue)
    (hstring : ∀ s, bad ≠ .string s) (harray : ∀ items, bad ≠ .array items)
    (h : args.Topics = pre.map TopicElem.toJSON ++ bad :: post) :
    GetLogs lib rpc fuel args = some ⟨.ret ([], some (.invalidTopics args.Topics)), 0, 0, 0⟩ := by
  have e : normalizeTopics lib args.Topics = .ret (.error (.invalidTopics args.Topics)) := by
    unfold normalizeTopics
    conv => lhs; arg 3; rw [h]
    exact topicLoop_append_invalid lib _ pre bad post [] hstring harray
  simp [GetLogs, e]

theorem nestedTopics_nonstring (lib : Lib) (strs : List String) (bad : JSONValue)
    (rest : List JSONValue) (topics : List Hash) (hbad : ∀ s, bad ≠ .string s) :
    nestedTopics lib (strs.map .string ++ bad :: rest) topics = .panic .typeAssertion := by
  induction strs generalizing topics with
  | nil =>
    cases bad with
    | string s => exact absurd rfl (hbad s)
    | null => simp [nestedTopics]
    | bool b => simp [nestedTopics]
    | number n => simp [nestedTopics]
    | array items => simp [nestedTopics]
    | object fields => simp [nestedTopics]
  | cons s tail ih => simp [nestedTopics, ih]

theorem topicLoop_append_panic (lib : Lib) (argsTopics : List JSONValue)
    (pre : List TopicElem) (items post : List JSONValue) (topics : List Hash)
    (h : ∀ topics, nestedTopics lib items topics = .panic .typeAssertion) :
    topicLoop lib argsTopics (pre.map TopicElem.toJSON ++ .array items :: post) topics
      = .panic .typeAssertion := by
  induction pre generalizing topics with
  | nil => simp [topicLoop, h]
  | cons e rest ih =>
    cases e with
    | single s => simp [TopicElem.toJSON, topicLoop, ih]
    | nested strs => simp [TopicElem.toJSON, topicLoop, nestedTopics_strings, ih]

/-- C8, what the code does instead: when the first ill-formed element of the
filter is a nested list whose first non-string item is `bad`, `GetLogs` does
not return an error; the type assertion `item.(string)` panics (before any
request is sent). -/
theorem GetLogs_nested_nonstring_panics (lib : Lib) (rpc : ThetaRPC) (fuel : Nat)
    (args : EthGetLogsArgs) (pre : List TopicElem) (strs : List String) (bad : JSONValue)
    (rest post : List JSONValue) (hbad : ∀ s, bad ≠ .string s)
    (h : args.Topics
      = pre.map TopicElem.toJSON ++ .array (strs.map .string ++ bad :: rest) :: post) :
    GetLogs lib rpc fuel args = some ⟨.panic .typeAssertion, 0, 0, 0⟩ := by
  have e : normalizeTopics lib args.Topics = .panic .typeAssertion := by
    unfold normalizeTopics
    conv => lhs; arg 3; rw [h]
    exact topicLoop_append_panic lib _ pre _ post []
      (fun topics => nestedTopics_nonstring lib strs bad rest topics hbad)
  simp [GetLogs, e]

/-- C8, the failing input: the filter `[[1]]`, a nested list that holds a
number. -/
theorem GetLogs_nested_nonstring_panics_witness :
    GetLogs sampleLib failingRPC 0 { sampleArgs with Topics := [.array [.number 1]] }
      = some ⟨.panic .typeAssertion, 0, 0, 0⟩ :=
  GetLogs_nested_nonstring_panics sampleLib failingRPC 0
    { sampleArgs with Topics := [.array [.number 1]] } [] [] (.number 1) [] []
    (fun s hs => by cases hs) rfl

/-! ## Range resolution: theorems -/

/-- C2, as amended: the resolved start after the swap is the smaller of the
two resolved heights, and the effective start is that height minus 2 when it is
at least 2 and that height itself (0 or 1) otherwise. -/
theorem resolveRange_start (lib : Lib) (currentHeight : Nat) (args : EthGetLogsArgs) :
    (swapRange (resolveTag lib currentHeight args.FromBlock)
        (resolveTag lib currentHeight args.ToBlock)).1
      = min (resolveTag lib currentHeight args.FromBlock)
          (resolveTag lib currentHeight args.ToBlock)
    ∧ (resolveRange lib currentHeight args).1
      = if 2 ≤ (swapRange (resolveTag lib currentHeight args.FromBlock)
            (resolveTag lib currentHeight args.ToBlock)).1
        then (swapRange (resolveTag lib currentHeight args.FromBlock)
            (resolveTag lib currentHeight args.ToBlock)).1 - 2
        else (swapRange (resolveTag lib currentHeight args.FromBlock)
            (resolveTag lib currentHeight args.ToBlock)).1 := by
  constructor
  · unfold swapRange
    split <;> simp only <;> omega
  · rfl

/-- C2, the counterexample: with both ends resolved to height 1 the resolved
start after the swap is 1, and the effective start is 1, not 0. -/
theorem resolveRange_start_one_not_clamped :
    (swapRange (resolveTag sampleLib 10 "earliest") (resolveTag sampleLib 10 "earliest")).1 = 1
    ∧ (resolveRange sampleLib 10
        { sampleArgs with FromBlock := "earliest", ToBlock := "earliest" }).1 = 1
    ∧ (resolveRange sampleLib 10
        { sampleArgs with FromBlock := "earliest", ToBlock := "earliest" }).1 ≠ 0 := by
  decide

/-! ## Signature decomposition: theorems -/

/-- C6, what the code does instead: no length is checked.  For a blob shorter
than 65 bytes `GetRSVfromSignature` panics on an out-of-range slice or index
expression, and whenever it returns, the error it returns is nil. -/
theorem GetRSVfromSignature_short (data : List Byte) (txResult : EthGetTransactionResult) :
    (data.length < 65 → ∃ p, GetRSVfromSignature data txResult = .panic p)
    ∧ (∀ out err, GetRSVfromSignature data txResult = .ret (out, err) → err = none) := by
  constructor
  · intro h
    unfold GetRSVfromSignature slice index
    by_cases h1 : 32 ≤ data.length
    · by_cases h2 : 64 ≤ data.length
      · have h3 : data[64]? = none := by
          rw [List.getElem?_eq_none_iff]; omega
        simp [Exec.bind, h1, h2, h3]
      · simp [Exec.bind, h1, h2]
    · simp [Exec.bind, h1]
  · intro out err h
    unfold GetRSVfromSignature slice index at h
    by_cases h1 : 32 ≤ data.length
    · by_cases h2 : 64 ≤ data.length
      · cases h3 : data[64]? with
        | none => simp [Exec.bind, h1, h2, h3] at h
        | some v =>
          simp only [Exec.bind, h1, h2, h3, Nat.zero_le, true_and, if_true, Nat.le_refl,
            Nat.reduceLeDiff, Exec.ret.injEq, Prod.mk.injEq] at h
          exact h.2.symm
      · simp [Exec.bind, h1, h2] at h
    · simp [Exec.bind, h1] at h

/-- C6, the failing input: a blob of 64 zero bytes; the index expression
`data[64]` is evaluated out of range. -/
theorem GetRSVfromSignature_short_witness :
    (List.replicate 64 (0 : Byte)).length < 65
    ∧ (∃ p, GetRSVfromSignature (List.replicate 64 0) EthGetTransactionResult.zero = .panic p)
    ∧ GetRSVfromSignature (List.replicate 64 0) EthGetTransactionResult.zero
        = .panic .indexOutOfRange :=
  ⟨by decide,
    (GetRSVfromSignature_short (List.replicate 64 0) EthGetTransactionResult.zero).1 (by decide),
    rfl⟩

/-- C5: for a blob `d` of 65 bytes `GetRSVfromSignature` returns without error
and sets R to bytes 0..31, S to bytes 32..63 and V to the value of byte 64,
leaving the other fields as they were, so that R, S and V together are `d`. -/
theorem GetRSVfromSignature_split (d : List Byte) (txResult : EthGetTransactionResult)
    (h : d.length = 65) :
    ∃ out, GetRSVfromSignature d txResult = .ret (out, none)
      ∧ out.R.bytes = d.take 32
      ∧ out.S.bytes = (d.drop 32).take 32
      ∧ (d.drop 64).map Fin.val = [out.V]
      ∧ (out.R.bytes ++ out.S.bytes).map Fin.val ++ [out.V] = d.map Fin.val
      ∧ out = { txResult with R := out.R, S := out.S, V := out.V } := by
  have hv : d[64]? = some (d[64]) := List.getElem?_eq_getElem (by omega)
  have hlast : d.drop 64 = [d[64]] := by
    apply List.ext_getElem
    · simp [h]
    · intro i h1 h2
      have hi : i = 0 := by simp at h2; omega
      subst hi
      simp
  have hsplit : d.take 32 ++ ((d.drop 32).take 32 ++ d.drop 64) = d := by
    have e1 : (d.drop 32).take 32 ++ d.drop 64 = d.drop 32 := by
      have := List.take_append_drop 32 (d.drop 32)
      simpa [List.drop_drop] using this
    rw [e1, List.take_append_drop]
  have hR : copy txResult.R.bytes (d.take 32) = d.take 32 := by
    have hl : (d.take 32).length = 32 := by simp [h]
    simp [copy, txResult.R.size, hl, List.take_take]
  have hS : copy txResult.S.bytes ((d.take 64).drop 32) = (d.drop 32).take 32 := by
    have e : (d.take 64).drop 32 = (d.drop 32).take 32 := by
      rw [List.drop_take]
    have hl : ((d.drop 32).take 32).length = 32 := by simp [h]
    rw [e]
    simp only [copy, txResult.S.size, hl, List.drop_of_length_le (le_of_eq txResult.S.size),
      List.append_nil]
    exact List.take_of_length_le (le_of_eq hl)
  refine ⟨{ txResult with
      R := txResult.R.copyFrom ((d.take 32).drop 0)
      S := txResult.S.copyFrom ((d.take 64).drop 32)
      V := (d[64]).val }, ?_, ?_, ?_, ?_, ?_, rfl⟩
  · simp [GetRSVfromSignature, slice, index, Exec.bind, h, hv]
  · simpa [Hash.copyFrom] using hR
  · simpa [Hash.copyFrom] using hS
  · simp [hlast]
  · have hR2 : (txResult.R.copyFrom ((d.take 32).drop 0)).bytes = d.take 32 := by
      simpa [Hash.copyFrom] using hR
    have hS2 : (txResult.S.copyFrom ((d.take 64).drop 32)).bytes = (d.drop 32).take 32 := by
      simpa [Hash.copyFrom] using hS
    have hV : [(d[64]).val] = (d.drop 64).map Fin.val := by simp [hlast]
    show List.map Fin.val _ ++ [(d[64]).val] = _
    rw [hR2, hS2, hV, ← List.map_append, List.append_assoc, hsplit]

/-- C5, the sample blob: 32 zero bytes, 32 bytes `0x11` and a final byte `0x05`
give R = 32 zero bytes, S = 32 bytes `0x11` and V = 5. -/
theorem GetRSVfromSignature_split_witness :
    sampleSignature.length = 65
    ∧ ∃ out, GetRSVfromSignature sampleSignature EthGetTransactionResult.zero = .ret (out, none)
      ∧ out.R.bytes = List.replicate 32 0
      ∧ out.S.bytes = List.replicate 32 0x11
      ∧ out.V = 5 := by
  refine ⟨by decide, ?_⟩
  obtain ⟨out, hret, hR, hS, hV, -, -⟩ :=
    GetRSVfromSignature_split sampleSignature EthGetTransactionResult.zero (by decide)
  refine ⟨out, hret, ?_, ?_, ?_⟩
  · rw [hR]; decide
  · rw [hS]; decide
  · have e : List.map Fin.val (List.drop 64 sampleSignature) = [5] := by decide
    rw [e] at hV
    simpa using hV.symm

/-! ## Log matching: theorems -/

theorem foldl_append_flatMap {α β : Type} (f : List β → α → List β)
    (hf : ∀ acc x, f acc x = acc ++ f [] x) (xs : List α) (acc : List β) :
    xs.foldl f acc = acc ++ xs.flatMap (f []) := by
  induction xs generalizing acc with
  | nil => simp
  | cons x rest ih => rw [List.foldl_cons, ih, hf acc x]; simp

theorem filter_flatMap {α β : Type} (p : β → Bool) (g : α → List β) (xs : List α) :
    (xs.flatMap g).filter p = xs.flatMap (fun x => (g x).filter p) := by
  induction xs with
  | nil => simp
  | cons x rest ih => simp [List.flatMap_cons, ih]

theorem topicFold_eq (topics : List Hash) (topic : Hash) (r : EthGetLogsResult)
    (result : List EthGetLogsResult) :
    topics.foldl (fun result t => if topic = t then result ++ [r] else result) result
      = result ++ List.replicate (topics.count topic) r := by
  induction topics generalizing result with
  | nil => simp
  | cons t rest ih =>
    rw [List.foldl_cons, ih, List.count_cons]
    by_cases h : topic = t
    · subst h
      simp [List.replicate_succ]
    · have h2 : ¬ (t = topic) := fun e => h e.symm
      simp [h, h2]

theorem logTopicFold_eq (topics logTopics : List Hash) (r : EthGetLogsResult)
    (result : List EthGetLogsResult) :
    logTopics.foldl
        (fun result topic =>
          topics.foldl (fun result t => if topic = t then result ++ [r] else result) result)
        result
      = result ++ List.replicate (logTopics.map (fun topic => topics.count topic)).sum r := by
  induction logTopics generalizing result with
  | nil => simp
  | cons topic rest ih =>
    rw [List.foldl_cons, ih, topicFold_eq, List.map_cons, List.sum_cons, List.replicate_add,
      List.append_assoc]

theorem sum_count_eq_countP (topics logTopics : List Hash) (h : topics.Nodup) :
    (logTopics.map (fun topic => topics.count topic)).sum
      = logTopics.countP (fun topic => topic ∈ topics) := by
  induction logTopics with
  | nil => simp
  | cons topic rest ih =>
    rw [List.map_cons, List.sum_cons, ih, List.countP_cons, List.count_eq_of_nodup h]
    by_cases hm : topic ∈ topics
    · simp [hm]; omega
    · simp [hm]

theorem matchLog_eq (lib : Lib) (topics : List Hash) (block : GetBlockResultInner) (txIndex : Nat)
    (tx : Tx) (receipt : Receipt) (result : List EthGetLogsResult) (logIndex : Nat) (log : Log) :
    matchLog lib topics block txIndex tx receipt result logIndex log
      = result ++ List.replicate
          (if topics.length > 0 then (log.Topics.map (fun topic => topics.count topic)).sum else 1)
          (newResult lib block txIndex tx receipt logIndex log) := by
  unfold matchLog
  split
  · exact logTopicFold_eq topics log.Topics _ result
  · simp

/-- C3, as amended: for a non-empty normalized filter, the records emitted for
a log are as many copies of the record of the log as there are pairs of a
position in the topic list of the log and a position in the filter list that
hold the same topic.  When the filter list has no repeated value this is the
number of positions in the topic list of the log whose topic is in the filter;
a log with no topic in the filter yields no record. -/
theorem matchLog_count (lib : Lib) (topics : List Hash) (block : GetBlockResultInner)
    (txIndex : Nat) (tx : Tx) (receipt : Receipt) (result : List EthGetLogsResult)
    (logIndex : Nat) (log : Log) (h : topics ≠ []) :
    matchLog lib topics block txIndex tx receipt result logIndex log
        = result ++ List.replicate (log.Topics.map (fun topic => topics.count topic)).sum
            (newResult lib block txIndex tx receipt logIndex log)
    ∧ (topics.Nodup →
        matchLog lib topics block txIndex tx receipt result logIndex log
          = result ++ List.replicate (log.Topics.countP (fun topic => topic ∈ topics))
              (newResult lib block txIndex tx receipt logIndex log))
    ∧ ((∀ topic ∈ log.Topics, topic ∉ topics) →
        matchLog lib topics block txIndex tx receipt result logIndex log = result) := by
  have hpos : topics.length > 0 := List.length_pos.mpr h
  have e := matchLog_eq lib topics block txIndex tx receipt result logIndex log
  rw [if_pos hpos] at e
  refine ⟨e, fun hnd => ?_, fun hno => ?_⟩
  · rw [e, sum_count_eq_countP topics log.Topics hnd]
  · have hz : (log.Topics.map (fun topic => topics.count topic)).sum = 0 := by
      apply List.sum_eq_zero
      intro n hn
      obtain ⟨topic, ht, rfl⟩ := List.mem_map.mp hn
      exact List.count_eq_zero.mpr (hno topic ht)
    rw [e, hz]
    simp

/-- C3, an instance: with the filter of two distinct topics, both among the
three topics of `sampleLog`, exactly two records are emitted. -/
theorem matchLog_count_witness :
    [sampleHash 4, sampleHash 5] ≠ []
    ∧ (matchLog sampleLib [sampleHash 4, sampleHash 5] sampleBlock 0 sampleTx sampleReceipt []
        0 sampleLog).length = 2 := by
  refine ⟨by decide, ?_⟩
  rw [(matchLog_count sampleLib [sampleHash 4, sampleHash 5] sampleBlock 0 sampleTx sampleReceipt
    [] 0 sampleLog (by decide)).2.1 (by decide)]
  decide

theorem retryHash_first_attempt (rpc : ThetaRPC) (Blockhash : Hash) (maxRetry : Nat)
    (block : GetBlockResultInner) (hm : 0 < maxRetry) (h : rpc.GetBlock 0 Blockhash = some block) :
    retryHash rpc Blockhash maxRetry 0 = .done ⟨some block, true, 1, 1⟩ := by
  rw [retryHash]
  have h0 : ¬ (0 = maxRetry) := by omega
  simp [hm, h0, h]

/-- C3, the counterexample: the filter holds the topic `sampleHash 4` twice
and the log holds it at one position; `GetLogs` emits two records for the log,
although only one position of its topic list holds a topic of the filter. -/
theorem GetLogs_repeated_filter_topic :
    normalizeTopics sampleLib repeatedTopicArgs.Topics
      = .ret (.ok [sampleHash 4, sampleHash 4])
    ∧ sampleLog.Topics.countP (fun topic => topic ∈ [sampleHash 4, sampleHash 4]) = 1
    ∧ ∃ records, GetLogs sampleLib servingRPC 0 repeatedTopicArgs
          = some ⟨.ret (records, none), 0, 1, 1⟩
        ∧ records.length = 2
        ∧ records.length
          ≠ sampleLog.Topics.countP (fun topic => topic ∈ [sampleHash 4, sampleHash 4]) := by
  have hn : normalizeTopics sampleLib repeatedTopicArgs.Topics
      = .ret (.ok [sampleHash 4, sampleHash 4]) := by rfl
  have hr : retryHash servingRPC repeatedTopicArgs.Blockhash 5 0
      = .done ⟨some sampleBlock, true, 1, 1⟩ :=
    retryHash_first_attempt _ _ _ _ (by decide) rfl
  have hz : repeatedTopicArgs.Blockhash ≠ Hash.zero := by decide
  refine ⟨hn, by decide, matchBlock sampleLib Address.zero [sampleHash 4, sampleHash 4] []
    sampleBlock, ?_, by decide, by decide⟩
  simp only [GetLogs, hn, hr, hz, ne_eq, not_false_eq_true, if_true, List.nil_append,
    matchBlocks, Exec.map]
  rfl

theorem matchLog_acc (lib : Lib) (topics : List Hash) (block : GetBlockResultInner) (txIndex : Nat)
    (tx : Tx) (receipt : Receipt) (result : List EthGetLogsResult) (logIndex : Nat) (log : Log) :
    matchLog lib topics block txIndex tx receipt result logIndex log
      = result ++ matchLog lib topics block txIndex tx receipt [] logIndex log := by
  rw [matchLog_eq lib topics block txIndex tx receipt result,
    matchLog_eq lib topics block txIndex tx receipt []]
  simp

theorem matchLog_address (lib : Lib) (topics : List Hash) (block : GetBlockResultInner)
    (txIndex : Nat) (tx : Tx) (receipt : Receipt) (logIndex : Nat) (log : Log) :
    ∀ r ∈ matchLog lib topics block txIndex tx receipt [] logIndex log,
      r.Address = receipt.ContractAddress := by
  intro r hr
  rw [matchLog_eq, List.nil_append] at hr
  rw [List.eq_of_mem_replicate hr]
  rfl

theorem logLoop_eq (lib : Lib) (topics : List Hash) (block : GetBlockResultInner) (txIndex : Nat)
    (tx : Tx) (receipt : Receipt) (entries : List (Nat × Log)) (result : List EthGetLogsResult) :
    entries.foldl
        (fun result entry => matchLog lib topics block txIndex tx receipt result entry.1 entry.2)
        result
      = result ++ entries.flatMap
          (fun entry => matchLog lib topics block txIndex tx receipt [] entry.1 entry.2) :=
  foldl_append_flatMap
    (fun result entry => matchLog lib topics block txIndex tx receipt result entry.1 entry.2)
    (fun acc entry => matchLog_acc lib topics block txIndex tx receipt acc entry.1 entry.2)
    entries result

theorem matchTx_acc (lib : Lib) (address : Address) (topics : List Hash)
    (block : GetBlockResultInner) (result : List EthGetLogsResult) (txIndex : Nat) (tx : Tx) :
    matchTx lib address topics block result txIndex tx
      = result ++ matchTx lib address topics block [] txIndex tx := by
  unfold matchTx
  split
  · simp
  · split
    · simp
    · split
      · simp
      · rw [logLoop_eq lib topics block txIndex tx _ _ result,
          logLoop_eq lib topics block txIndex tx _ _ []]
        simp

theorem matchTx_address (lib : Lib) (address : Address) (topics : List Hash)
    (block : GetBlockResultInner) (txIndex : Nat) (tx : Tx) (receipt : Receipt)
    (hr : tx.Receipt = some receipt) :
    ∀ r ∈ matchTx lib address topics block [] txIndex tx, r.Address = receipt.ContractAddress := by
  intro r hmem
  unfold matchTx at hmem
  rw [hr] at hmem
  simp only at hmem
  split at hmem
  · simp at hmem
  · split at hmem
    · simp at hmem
    · rw [logLoop_eq, List.nil_append, List.mem_flatMap] at hmem
      obtain ⟨entry, -, hin⟩ := hmem
      exact matchLog_address lib topics block txIndex tx receipt entry.1 entry.2 r hin

theorem matchTx_filter (lib : Lib) (address : Address) (topics : List Hash)
    (block : GetBlockResultInner) (txIndex : Nat) (tx : Tx) (h : address ≠ Address.zero) :
    matchTx lib address topics block [] txIndex tx
      = (matchTx lib Address.zero topics block [] txIndex tx).filter
          (fun r => r.Address = address) := by
  cases hr : tx.Receipt with
  | none => simp [matchTx, hr]
  | some receipt =>
    have hall := matchTx_address lib Address.zero topics block txIndex tx receipt hr
    by_cases hty : tx.Type_ = lib.TxSmartContract
    · by_cases hc : receipt.ContractAddress = address
      · have hself : (matchTx lib Address.zero topics block [] txIndex tx).filter
            (fun r => r.Address = address)
            = matchTx lib Address.zero topics block [] txIndex tx := by
          rw [List.filter_eq_self]
          intro r hmem
          simp [hall r hmem, hc]
        rw [hself]
        simp [matchTx, hr, hty, hc]
      · have hnil : (matchTx lib Address.zero topics block [] txIndex tx).filter
            (fun r => r.Address = address) = [] := by
          rw [List.filter_eq_nil_iff]
          intro r hmem
          simp [hall r hmem, hc]
        rw [hnil]
        simp [matchTx, hr, hty, hc, h]
    · simp [matchTx, hty]

theorem matchBlock_eq (lib : Lib) (address : Address) (topics : List Hash)
    (result : List EthGetLogsResult) (block : GetBlockResultInner) :
    matchBlock lib address topics result block
      = result ++ block.Txs.enum.flatMap
          (fun entry => matchTx lib address topics block [] entry.1 entry.2) := by
  unfold matchBlock
  exact foldl_append_flatMap
    (fun result (entry : Nat × Tx) => matchTx lib address topics block result entry.1 entry.2)
    (fun acc entry => matchTx_acc lib address topics block acc entry.1 entry.2)
    block.Txs.enum result

theorem matchBlock_filter (lib : Lib) (address : Address) (topics : List Hash)
    (result : List EthGetLogsResult) (block : GetBlockResultInner) (h : address ≠ Address.zero) :
    matchBlock lib address topics (result.filter (fun r => r.Address = address)) block
      = (matchBlock lib Address.zero topics result block).filter
          (fun r => r.Address = address) := by
  rw [matchBlock_eq, matchBlock_eq, List.filter_append, filter_flatMap]
  congr 2
  funext entry
  exact matchTx_filter lib address topics block entry.1 entry.2 h

theorem matchBlocks_filter (lib : Lib) (address : Address) (topics : List Hash)
    (blocks : List (Option GetBlockResultInner)) (result : List EthGetLogsResult)
    (h : address ≠ Address.zero) :
    matchBlocks lib address topics blocks (result.filter (fun r => r.Address = address))
      = (matchBlocks lib Address.zero topics blocks result).map
          (fun records => records.filter (fun r => r.Address = address)) := by
  induction blocks generalizing result with
  | nil => simp [matchBlocks, Exec.map]
  | cons block rest ih =>
    cases block with
    | none => simp [matchBlocks, Exec.map]
    | some block =>
      simp only [matchBlocks]
      rw [matchBlock_filter lib address topics result block h, ih]

/-- C4: with a non-zero address filter `address`, `GetLogs` ends as it does
with the zero address filter, its records restricted (in order) to the ones
whose `Address` is `address`. -/
theorem GetLogs_address_filter (lib : Lib) (rpc : ThetaRPC) (fuel : Nat) (args : EthGetLogsArgs)
    (address : Address) (h : address ≠ Address.zero) :
    GetLogs lib rpc fuel { args with Address := address }
      = (GetLogs lib rpc fuel { args with Address := Address.zero }).map
          (GetLogsRun.restrictTo address) := by
  have hm : ∀ topics blocks,
      (matchBlocks lib address topics blocks []).map (fun result => (result, (none : Option Error)))
        = ((matchBlocks lib Address.zero topics blocks []).map (fun result => (result, none))).map
            (fun out => (out.1.filter (fun r => r.Address = address), out.2)) := by
    intro topics blocks
    have e := matchBlocks_filter lib address topics blocks [] h
    simp only [List.filter_nil] at e
    rw [e]
    cases matchBlocks lib Address.zero topics blocks [] <;> rfl
  simp only [GetLogs]
  cases hn : normalizeTopics lib args.Topics with
  | panic p => rfl
  | ret v =>
    cases v with
    | error err => rfl
    | ok topics =>
      by_cases hb : args.Blockhash = Hash.zero
      · simp only [hb, ne_eq, not_true_eq_false, if_false]
        cases rpc.GetCurrentHeight with
        | error err => rfl
        | ok currentHeight =>
          simp only [resolveRange]
          cases retryRange rpc
              (finalityMargin (swapRange (resolveTag lib currentHeight args.FromBlock)
                (resolveTag lib currentHeight args.ToBlock)).1)
              (swapRange (resolveTag lib currentHeight args.FromBlock)
                (resolveTag lib currentHeight args.ToBlock)).2 5 fuel 0 [] 0 with
          | none => rfl
          | some ex =>
            cases ex with
            | returned err attempts fetches => rfl
            | done state =>
              simp only [Option.map_some', GetLogsRun.restrictTo, hm]
      · simp only [hb, ne_eq, not_false_eq_true, if_true]
        cases retryHash rpc args.Blockhash 5 0 with
        | returned err attempts fetches => rfl
        | done state =>
          simp only [Option.map_some', GetLogsRun.restrictTo, hm]

/-- C4, an instance: the address filter `sampleAddress 1` on the block served by
`servingRPC`. -/
theorem GetLogs_address_filter_witness :
    sampleAddress 1 ≠ Address.zero
    ∧ GetLogs sampleLib servingRPC 0 { repeatedTopicArgs with Address := sampleAddress 1 }
      = (GetLogs sampleLib servingRPC 0 { repeatedTopicArgs with Address := Address.zero }).map
          (GetLogsRun.restrictTo (sampleAddress 1)) :=
  ⟨by decide, GetLogs_address_filter sampleLib servingRPC 0 repeatedTopicArgs (sampleAddress 1)
    (by decide)⟩

/-! ## Retry loops: theorems -/

theorem retryHash_succeeds (rpc : ThetaRPC) (Blockhash : Hash) (maxRetry : Nat)
    (block : GetBlockResultInner) (d i : Nat) (hm : i + d < maxRetry)
    (hfail : ∀ j, i ≤ j → j < i + d → rpc.GetBlock j Blockhash = none)
    (hok : rpc.GetBlock (i + d) Blockhash = some block) :
    retryHash rpc Blockhash maxRetry i = .done ⟨some block, true, i + d + 1, i + d + 1⟩ := by
  induction d generalizing i with
  | zero =>
    rw [retryHash]
    have h1 : i < maxRetry := by omega
    have h2 : ¬ (i = maxRetry) := by omega
    simp only [Nat.add_zero] at hok
    simp [h1, h2, hok]
  | succ d ih =>
    rw [retryHash]
    have h1 : i < maxRetry := by omega
    have h2 : ¬ (i = maxRetry) := by omega
    have h3 : rpc.GetBlock i Blockhash = none := hfail i (le_refl i) (by omega)
    have e : i + 1 + d = i + (d + 1) := by omega
    have := ih (i + 1) (by omega) (fun j hj1 hj2 => hfail j (by omega) (by omega)) (by rw [e]; exact hok)
    simp only [h1, h2, h3, if_true, if_false]
    rw [this, e]

theorem retryHash_exhausted (rpc : ThetaRPC) (Blockhash : Hash) (maxRetry : Nat) (d i : Nat)
    (hd : i + d = maxRetry)
    (hfail : ∀ j, i ≤ j → j < maxRetry → rpc.GetBlock j Blockhash = none) :
    retryHash rpc Blockhash maxRetry i = .done ⟨none, false, maxRetry, maxRetry⟩ := by
  induction d generalizing i with
  | zero =>
    rw [retryHash]
    have h1 : ¬ (i < maxRetry) := by omega
    have h2 : i = maxRetry := by omega
    simp [h1, h2]
  | succ d ih =>
    rw [retryHash]
    have h1 : i < maxRetry := by omega
    have h2 : ¬ (i = maxRetry) := by omega
    have h3 : rpc.GetBlock i Blockhash = none := hfail i (le_refl i) h1
    simp only [h1, h2, h3, if_true, if_false]
    exact ih (i + 1) (by omega) (fun j hj1 hj2 => hfail j (by omega) hj2)

theorem retryHash_done (rpc : ThetaRPC) (Blockhash : Hash) (maxRetry : Nat) (d i : Nat)
    (hd : i + d = maxRetry) :
    ∃ state, retryHash rpc Blockhash maxRetry i = .done state ∧ state.attempts ≤ maxRetry
      ∧ state.fetches = state.attempts := by
  induction d generalizing i with
  | zero =>
    rw [retryHash]
    have h1 : ¬ (i < maxRetry) := by omega
    simp only [h1, if_false]
    exact ⟨_, rfl, by show i ≤ maxRetry; omega, rfl⟩
  | succ d ih =>
    rw [retryHash]
    have h1 : i < maxRetry := by omega
    have h2 : ¬ (i = maxRetry) := by omega
    simp only [h1, h2, if_true, if_false]
    cases rpc.GetBlock i Blockhash with
    | none => exact ih (i + 1) (by omega)
    | some block => exact ⟨_, rfl, by show i + 1 ≤ maxRetry; omega, rfl⟩

theorem fetchRange_failed_nil (rpc : ThetaRPC) (i blockEnd : Nat) (fuel n h : Nat)
    (blocks bs : List (Option GetBlockResultInner)) (m : Nat)
    (hr : fetchRange rpc i blockEnd fuel n h blocks = some (false, bs, m)) : bs = [] := by
  induction fuel generalizing n h blocks with
  | zero => simp [fetchRange] at hr
  | succ fuel ih =>
    rw [fetchRange] at hr
    split at hr
    · cases hg : rpc.GetBlockByHeight i n h with
      | none =>
        rw [hg] at hr
        simp only [Option.some.injEq, Prod.mk.injEq, true_and] at hr
        exact hr.1.symm
      | some block =>
        rw [hg] at hr
        exact ih _ _ _ hr
    · simp at hr

theorem fetchRange_wrap_no_success (rpc : ThetaRPC) (i blockEnd : Nat) (fuel n h : Nat)
    (blocks bs : List (Option GetBlockResultInner)) (m : Nat)
    (he : 2 ^ 64 - 1 ≤ blockEnd) (hh : h < 2 ^ 64) :
    fetchRange rpc i blockEnd fuel n h blocks ≠ some (true, bs, m) := by
  induction fuel generalizing n h blocks with
  | zero => simp [fetchRange]
  | succ fuel ih =>
    rw [fetchRange]
    have h1 : h ≤ blockEnd := by omega
    simp only [h1, if_true]
    cases rpc.GetBlockByHeight i n h with
    | none => simp
    | some block => exact ih _ _ _ (Nat.mod_lt _ (by norm_num))

theorem map_range_shift {α : Type} (f : Nat → α) (k : Nat) :
    (List.range (k + 1)).map f = f 0 :: (List.range k).map (fun d => f (d + 1)) := by
  rw [List.range_succ_eq_map]
  simp [Function.comp_def]

theorem fetch_shift (rpc : ThetaRPC) (i n h : Nat) :
    (fun d => rpc.GetBlockByHeight i (n + (d + 1)) (h + (d + 1)))
      = (fun d => rpc.GetBlockByHeight i (n + 1 + d) (h + 1 + d)) := by
  funext d
  rw [show n + 1 + d = n + (d + 1) by omega, show h + 1 + d = h + (d + 1) by omega]

theorem fetchRange_success (rpc : ThetaRPC) (i blockEnd : Nat) (fuel n h : Nat)
    (blocks bs : List (Option GetBlockResultInner)) (m : Nat) (hh : h ≤ blockEnd + 1)
    (hr : fetchRange rpc i blockEnd fuel n h blocks = some (true, bs, m)) :
    bs = blocks ++ (List.range (blockEnd + 1 - h)).map
        (fun d => rpc.GetBlockByHeight i (n + d) (h + d))
    ∧ (∀ d, d < blockEnd + 1 - h → (rpc.GetBlockByHeight i (n + d) (h + d)).isSome)
    ∧ m = n + (blockEnd + 1 - h) := by
  induction fuel generalizing n h blocks with
  | zero => simp [fetchRange] at hr
  | succ fuel ih =>
    rw [fetchRange] at hr
    by_cases hle : h ≤ blockEnd
    · simp only [hle, if_true] at hr
      cases hg : rpc.GetBlockByHeight i n h with
      | none => rw [hg] at hr; simp at hr
      | some block =>
        rw [hg] at hr
        simp only at hr
        by_cases hw : h + 1 < 2 ^ 64
        · rw [Nat.mod_eq_of_lt hw] at hr
          obtain ⟨h1, h2, h3⟩ := ih (n + 1) (h + 1) (blocks ++ [some block]) (by omega) hr
          have hk : blockEnd + 1 - h = (blockEnd + 1 - (h + 1)) + 1 := by omega
          refine ⟨?_, ?_, by omega⟩
          · rw [h1, hk, map_range_shift, fetch_shift]
            simp only [Nat.add_zero, hg, List.append_assoc, List.singleton_append]
          · intro d hd
            cases d with
            | zero => simp [hg]
            | succ d =>
              have := h2 d (by omega)
              rw [show n + 1 + d = n + (d + 1) by omega,
                show h + 1 + d = h + (d + 1) by omega] at this
              exact this
        · exact absurd hr (fetchRange_wrap_no_success rpc i blockEnd fuel _ _ _ bs m
            (by omega) (Nat.mod_lt _ (by norm_num)))
    · simp only [hle, if_false, Option.some.injEq, Prod.mk.injEq, true_and] at hr
      have hz : blockEnd + 1 - h = 0 := by omega
      rw [hz]
      exact ⟨by simp [hr.1], by intro d hd; omega, by omega⟩

theorem fetchRange_succeeds (rpc : ThetaRPC) (i blockEnd : Nat) (fuel n h : Nat)
    (blocks : List (Option GetBlockResultInner)) (hh : h ≤ blockEnd + 1)
    (he : blockEnd < MaxUint64) (hfuel : blockEnd + 1 - h < fuel)
    (hok : ∀ d, h + d ≤ blockEnd → (rpc.GetBlockByHeight i (n + d) (h + d)).isSome) :
    fetchRange rpc i blockEnd fuel n h blocks
      = some (true, blocks ++ (List.range (blockEnd + 1 - h)).map
          (fun d => rpc.GetBlockByHeight i (n + d) (h + d)), n + (blockEnd + 1 - h)) := by
  induction fuel generalizing n h blocks with
  | zero => omega
  | succ fuel ih =>
    rw [fetchRange]
    by_cases hle : h ≤ blockEnd
    · simp only [hle, if_true]
      have h0 := hok 0 (by omega)
      simp only [Nat.add_zero] at h0
      obtain ⟨block, hg⟩ := Option.isSome_iff_exists.mp h0
      rw [hg]
      simp only
      have hw : h + 1 < 2 ^ 64 := by unfold MaxUint64 at he; omega
      rw [Nat.mod_eq_of_lt hw, ih (n + 1) (h + 1) _ (by omega) (by omega)
        (fun d hd => by
          have := hok (d + 1) (by omega)
          rw [show n + (d + 1) = n + 1 + d by omega, show h + (d + 1) = h + 1 + d by omega] at this
          exact this)]
      have hk : blockEnd + 1 - h = (blockEnd + 1 - (h + 1)) + 1 := by omega
      have e1 : n + 1 + (blockEnd + 1 - (h + 1)) = n + (blockEnd + 1 - (h + 1) + 1) := by omega
      rw [hk, map_range_shift, fetch_shift, e1]
      simp only [Nat.add_zero, hg, List.append_assoc, List.singleton_append]
    · have hz : blockEnd + 1 - h = 0 := by omega
      simp [hle, hz]

theorem fetchRange_fails (rpc : ThetaRPC) (i blockEnd : Nat) (fuel n h d : Nat)
    (blocks : List (Option GetBlockResultInner)) (hd : h + d ≤ blockEnd)
    (he : blockEnd ≤ MaxUint64) (hfuel : d < fuel)
    (hnone : rpc.GetBlockByHeight i (n + d) (h + d) = none) :
    ∃ m, fetchRange rpc i blockEnd fuel n h blocks = some (false, [], m) := by
  induction fuel generalizing n h d blocks with
  | zero => omega
  | succ fuel ih =>
    rw [fetchRange]
    have hle : h ≤ blockEnd := by omega
    simp only [hle, if_true]
    cases hg : rpc.GetBlockByHeight i n h with
    | none => exact ⟨_, rfl⟩
    | some block =>
      cases d with
      | zero => simp [hg] at hnone
      | succ d =>
        have hw : h + 1 < 2 ^ 64 := by unfold MaxUint64 at he; omega
        simp only
        rw [Nat.mod_eq_of_lt hw]
        exact ih (n + 1) (h + 1) d _ (by omega) (by omega)
          (by rw [show n + 1 + d = n + (d + 1) by omega, show h + 1 + d = h + (d + 1) by omega]
              exact hnone)

theorem retryRange_succeeds (rpc : ThetaRPC) (blockStart blockEnd maxRetry fuel : Nat)
    (bs : List (Option GetBlockResultInner)) (n d i fetches : Nat) (hm : i + d < maxRetry)
    (hfail : ∀ j, i ≤ j → j < i + d →
      ∃ m, fetchRange rpc j blockEnd fuel 0 blockStart [] = some (false, [], m))
    (hok : fetchRange rpc (i + d) blockEnd fuel 0 blockStart [] = some (true, bs, n)) :
    ∃ f, retryRange rpc blockStart blockEnd maxRetry fuel i [] fetches
      = some (.done ⟨bs, true, i + d + 1, f⟩) := by
  induction d generalizing i fetches with
  | zero =>
    rw [retryRange]
    have h1 : i < maxRetry := by omega
    have h2 : ¬ (i = maxRetry) := by omega
    simp only [Nat.add_zero] at hok
    simp only [h1, h2, if_true, if_false, hok]
    exact ⟨_, rfl⟩
  | succ d ih =>
    rw [retryRange]
    have h1 : i < maxRetry := by omega
    have h2 : ¬ (i = maxRetry) := by omega
    obtain ⟨m, h3⟩ := hfail i (le_refl i) (by omega)
    have e : i + 1 + d = i + (d + 1) := by omega
    obtain ⟨f, hf⟩ := ih (i + 1) (fetches + m) (by omega)
      (fun j hj1 hj2 => hfail j (by omega) (by omega)) (by rw [e]; exact hok)
    simp only [h1, h2, if_true, if_false, h3]
    exact ⟨f, by rw [← e]; exact hf⟩

theorem retryRange_exhausted (rpc : ThetaRPC) (blockStart blockEnd maxRetry fuel : Nat)
    (d i fetches : Nat) (hd : i + d = maxRetry)
    (hfail : ∀ j, i ≤ j → j < maxRetry →
      ∃ m, fetchRange rpc j blockEnd fuel 0 blockStart [] = some (false, [], m)) :
    ∃ f, retryRange rpc blockStart blockEnd maxRetry fuel i [] fetches
      = some (.done ⟨[], false, maxRetry, f⟩) := by
  induction d generalizing i fetches with
  | zero =>
    have h2 : maxRetry = i := by omega
    subst h2
    rw [retryRange]
    simp only [Nat.lt_irrefl, if_false]
    exact ⟨_, rfl⟩
  | succ d ih =>
    rw [retryRange]
    have h1 : i < maxRetry := by omega
    have h2 : ¬ (i = maxRetry) := by omega
    obtain ⟨m, h3⟩ := hfail i (le_refl i) h1
    simp only [h1, h2, if_true, if_false, h3]
    exact ih (i + 1) (fetches + m) (by omega) (fun j hj1 hj2 => hfail j (by omega) hj2)

theorem retryRange_done (rpc : ThetaRPC) (blockStart blockEnd maxRetry fuel : Nat)
    (hse : blockStart ≤ blockEnd) (d i fetches : Nat) (hd : i + d = maxRetry)
    (ex : LoopExit (List (Option GetBlockResultInner)))
    (hr : retryRange rpc blockStart blockEnd maxRetry fuel i [] fetches = some ex) :
    ∃ state, ex = .done state ∧ i ≤ state.attempts ∧ state.attempts ≤ maxRetry
      ∧ (state.broke = true → i < state.attempts
          ∧ state.value = (List.range (blockEnd - blockStart + 1)).map
              (fun k => rpc.GetBlockByHeight (state.attempts - 1) k (blockStart + k))
          ∧ ∀ k, k < blockEnd - blockStart + 1 →
              (rpc.GetBlockByHeight (state.attempts - 1) k (blockStart + k)).isSome)
      ∧ (state.broke = false → state.value = [] ∧ state.attempts = maxRetry) := by
  induction d generalizing i fetches with
  | zero =>
    rw [retryRange] at hr
    have h1 : ¬ (i < maxRetry) := by omega
    simp only [h1, if_false, Option.some.injEq] at hr
    subst hr
    exact ⟨_, rfl, le_refl i, by show i ≤ maxRetry; omega, by simp, fun _ => ⟨rfl, by
      show i = maxRetry; omega⟩⟩
  | succ d ih =>
    rw [retryRange] at hr
    have h1 : i < maxRetry := by omega
    have h2 : ¬ (i = maxRetry) := by omega
    simp only [h1, h2, if_true, if_false] at hr
    cases hf : fetchRange rpc i blockEnd fuel 0 blockStart [] with
    | none => rw [hf] at hr; simp at hr
    | some out =>
      obtain ⟨success, bs, n⟩ := out
      rw [hf] at hr
      simp only at hr
      cases success with
      | false =>
        have hnil := fetchRange_failed_nil rpc i blockEnd fuel 0 blockStart [] bs n hf
        subst hnil
        simp only [Bool.false_eq_true, if_false] at hr
        obtain ⟨state, h3, h4, h5, h6, h7⟩ := ih (i + 1) (fetches + n) (by omega) hr
        exact ⟨state, h3, by omega, h5, fun hb => ⟨by omega, (h6 hb).2⟩, h7⟩
      | true =>
        simp only [if_true, Option.some.injEq] at hr
        subst hr
        obtain ⟨e1, e2, -⟩ := fetchRange_success rpc i blockEnd fuel 0 blockStart [] bs n
          (by omega) hf
        have hk : blockEnd + 1 - blockStart = blockEnd - blockStart + 1 := by omega
        simp only [List.nil_append, Nat.zero_add, hk] at e1 e2
        exact ⟨_, rfl, by show i ≤ i + 1; omega, by show i + 1 ≤ maxRetry; omega,
          fun _ => ⟨by show i < i + 1; omega, e1, e2⟩, by simp⟩

theorem resolveRange_le (lib : Lib) (currentHeight : Nat) (args : EthGetLogsArgs) :
    (resolveRange lib currentHeight args).1 ≤ (resolveRange lib currentHeight args).2 := by
  unfold resolveRange
  generalize resolveTag lib currentHeight args.FromBlock = a
  generalize resolveTag lib currentHeight args.ToBlock = b
  unfold swapRange finalityMargin
  by_cases h : a > b
  · simp only [h, if_true]
    split <;> omega
  · simp only [h, if_false]
    split <;> omega

theorem all_some_eq_map {α : Type} (l : List (Option α)) (h : ∀ x ∈ l, x.isSome) :
    ∃ l2 : List α, l = l2.map some := by
  induction l with
  | nil => exact ⟨[], rfl⟩
  | cons x rest ih =>
    obtain ⟨l2, h2⟩ := ih (fun y hy => h y (List.mem_cons_of_mem x hy))
    obtain ⟨a, ha⟩ := Option.isSome_iff_exists.mp (h x (List.mem_cons_self x rest))
    exact ⟨a :: l2, by simp [ha, h2]⟩

theorem matchBlocks_some (lib : Lib) (address : Address) (topics : List Hash)
    (fetched : List GetBlockResultInner) (result : List EthGetLogsResult) :
    matchBlocks lib address topics (fetched.map some) result
      = .ret (fetched.foldl (matchBlock lib address topics) result) := by
  induction fetched generalizing result with
  | nil => rfl
  | cons block rest ih => simp only [List.map_cons, matchBlocks, List.foldl_cons, ih]

/-- C1, what the code does instead: the check `i == maxRetry` sits inside the
loop `for i := 0; i < maxRetry; i++` and is never true, so when all 5 attempts
fail `GetLogs` returns no error.  In hash mode the nil block pointer is
appended to the block list and reading its transactions panics; in range mode
the empty block list is matched and the empty result is returned with a nil
error. -/
theorem GetLogs_fetch_exhausted (lib : Lib) (rpc : ThetaRPC) (fuel : Nat) (args : EthGetLogsArgs)
    (topics : List Hash) (hn : normalizeTopics lib args.Topics = .ret (.ok topics)) :
    (args.Blockhash ≠ Hash.zero →
      (∀ j, j < 5 → rpc.GetBlock j args.Blockhash = none) →
      GetLogs lib rpc fuel args = some ⟨.panic .nilDereference, 0, 5, 5⟩)
    ∧ (args.Blockhash = Hash.zero → ∀ currentHeight, rpc.GetCurrentHeight = .ok currentHeight →
      (∀ j, j < 5 → ∃ m, fetchRange rpc j (resolveRange lib currentHeight args).2 fuel 0
          (resolveRange lib currentHeight args).1 [] = some (false, [], m)) →
      ∃ fetches, GetLogs lib rpc fuel args = some ⟨.ret ([], none), 1, 5, fetches⟩) := by
  constructor
  · intro hz hfail
    have hr := retryHash_exhausted rpc args.Blockhash 5 5 0 rfl (fun j _ hj => hfail j hj)
    simp only [GetLogs, hn, hz, ne_eq, not_false_eq_true, if_true, hr, List.nil_append,
      matchBlocks, Exec.map]
  · intro hz currentHeight hc hfail
    obtain ⟨f, hr⟩ := retryRange_exhausted rpc (resolveRange lib currentHeight args).1
      (resolveRange lib currentHeight args).2 5 fuel 5 0 0 rfl (fun j _ hj => hfail j hj)
    exact ⟨f, by simp only [GetLogs, hn, hz, ne_eq, not_true_eq_false, if_false, hc, hr,
      matchBlocks, Exec.map]⟩

/-- C1, the failing inputs: on a chain where every block request fails, the
range-mode call returns the empty result with a nil error after 5 attempts and
the hash-mode call panics after 5 attempts. -/
theorem GetLogs_fetch_exhausted_witness :
    (∃ fetches, GetLogs sampleLib failingRPC 1 sampleArgs = some ⟨.ret ([], none), 1, 5, fetches⟩)
    ∧ GetLogs sampleLib failingRPC 1 sampleHashArgs = some ⟨.panic .nilDereference, 0, 5, 5⟩ :=
  ⟨(GetLogs_fetch_exhausted sampleLib failingRPC 1 sampleArgs [] rfl).2 rfl 10 rfl
      (fun _ _ => ⟨1, rfl⟩),
    (GetLogs_fetch_exhausted sampleLib failingRPC 1 sampleHashArgs [] rfl).1 (by decide)
      (fun _ _ => rfl)⟩

/-- C9: when the topic filter is well-formed, the first `k` attempts fail and
attempt `k + 1` succeeds, for `k` at most 4, `GetLogs` returns the records
matched in the blocks of that attempt with a nil error after exactly `k + 1`
attempts (in hash mode: after exactly `k + 1` block requests).  A range-mode
attempt fails or succeeds as its height loop ends with `success` false or
true; for a range that ends below the largest `uint64` and enough fuel this is
the case as soon as one request of the attempt fails, respectively all its
requests are answered.  No call of `GetLogs` makes more than 5 attempts. -/
theorem GetLogs_retry_succeeds (lib : Lib) (rpc : ThetaRPC) (fuel : Nat) (args : EthGetLogsArgs)
    (k : Nat) (hk : k ≤ 4) :
    (∀ topics block, normalizeTopics lib args.Topics = .ret (.ok topics) →
      args.Blockhash ≠ Hash.zero →
      (∀ j, j < k → rpc.GetBlock j args.Blockhash = none) →
      rpc.GetBlock k args.Blockhash = some block →
      GetLogs lib rpc fuel args
        = some ⟨.ret (matchBlock lib args.Address topics [] block, none), 0, k + 1, k + 1⟩)
    ∧ (∀ topics currentHeight blocks n, normalizeTopics lib args.Topics = .ret (.ok topics) →
      args.Blockhash = Hash.zero → rpc.GetCurrentHeight = .ok currentHeight →
      (∀ j, j < k → ∃ m, fetchRange rpc j (resolveRange lib currentHeight args).2 fuel 0
          (resolveRange lib currentHeight args).1 [] = some (false, [], m)) →
      fetchRange rpc k (resolveRange lib currentHeight args).2 fuel 0
          (resolveRange lib currentHeight args).1 [] = some (true, blocks, n) →
      ∃ (fetched : List GetBlockResultInner) (fetches : Nat), blocks = fetched.map some
        ∧ GetLogs lib rpc fuel args
          = some ⟨.ret (fetched.foldl (matchBlock lib args.Address topics) [], none), 1, k + 1,
              fetches⟩)
    ∧ (∀ topics currentHeight, normalizeTopics lib args.Topics = .ret (.ok topics) →
      args.Blockhash = Hash.zero → rpc.GetCurrentHeight = .ok currentHeight →
      (resolveRange lib currentHeight args).2 < MaxUint64 →
      (resolveRange lib currentHeight args).2 + 1 - (resolveRange lib currentHeight args).1 < fuel →
      (∀ j, j < k → ∃ d, (resolveRange lib currentHeight args).1 + d
            ≤ (resolveRange lib currentHeight args).2
          ∧ rpc.GetBlockByHeight j d ((resolveRange lib currentHeight args).1 + d) = none) →
      (∀ d, (resolveRange lib currentHeight args).1 + d ≤ (resolveRange lib currentHeight args).2 →
          (rpc.GetBlockByHeight k d ((resolveRange lib currentHeight args).1 + d)).isSome) →
      ∃ (fetched : List GetBlockResultInner) (fetches : Nat),
        (List.range ((resolveRange lib currentHeight args).2 + 1
            - (resolveRange lib currentHeight args).1)).map
          (fun d => rpc.GetBlockByHeight k d ((resolveRange lib currentHeight args).1 + d))
          = fetched.map some
        ∧ GetLogs lib rpc fuel args
          = some ⟨.ret (fetched.foldl (matchBlock lib args.Address topics) [], none), 1, k + 1,
              fetches⟩)
    ∧ (∀ run, GetLogs lib rpc fuel args = some run → run.attempts ≤ 5) := by
  have hhash : ∀ topics block, normalizeTopics lib args.Topics = .ret (.ok topics) →
      args.Blockhash ≠ Hash.zero →
      (∀ j, j < k → rpc.GetBlock j args.Blockhash = none) →
      rpc.GetBlock k args.Blockhash = some block →
      GetLogs lib rpc fuel args
        = some ⟨.ret (matchBlock lib args.Address topics [] block, none), 0, k + 1, k + 1⟩ := by
    intro topics block hn hz hfail hok
    have hr := retryHash_succeeds rpc args.Blockhash 5 block k 0 (by omega)
      (fun j _ hj => hfail j (by omega)) (by rw [Nat.zero_add]; exact hok)
    simp only [Nat.zero_add] at hr
    simp only [GetLogs, hn, hz, ne_eq, not_false_eq_true, if_true, hr, List.nil_append,
      matchBlocks, Exec.map]
  have hrange : ∀ topics currentHeight blocks n,
      normalizeTopics lib args.Topics = .ret (.ok topics) →
      args.Blockhash = Hash.zero → rpc.GetCurrentHeight = .ok currentHeight →
      (∀ j, j < k → ∃ m, fetchRange rpc j (resolveRange lib currentHeight args).2 fuel 0
          (resolveRange lib currentHeight args).1 [] = some (false, [], m)) →
      fetchRange rpc k (resolveRange lib currentHeight args).2 fuel 0
          (resolveRange lib currentHeight args).1 [] = some (true, blocks, n) →
      ∃ (fetched : List GetBlockResultInner) (fetches : Nat), blocks = fetched.map some
        ∧ GetLogs lib rpc fuel args
          = some ⟨.ret (fetched.foldl (matchBlock lib args.Address topics) [], none), 1, k + 1,
              fetches⟩ := by
    intro topics currentHeight blocks n hn hz hc hfail hok
    obtain ⟨f, hr⟩ := retryRange_succeeds rpc (resolveRange lib currentHeight args).1
      (resolveRange lib currentHeight args).2 5 fuel blocks n k 0 0 (by omega)
      (fun j _ hj => hfail j (by omega)) (by rw [Nat.zero_add]; exact hok)
    simp only [Nat.zero_add] at hr
    obtain ⟨e1, e2, -⟩ := fetchRange_success rpc k (resolveRange lib currentHeight args).2 fuel 0
      (resolveRange lib currentHeight args).1 [] blocks n
      (by have := resolveRange_le lib currentHeight args; omega) hok
    obtain ⟨fetched, hfetched⟩ := all_some_eq_map blocks (by
      intro x hx
      rw [e1, List.nil_append, List.mem_map] at hx
      obtain ⟨d, hd, rfl⟩ := hx
      exact e2 d (List.mem_range.mp hd))
    refine ⟨fetched, f, hfetched, ?_⟩
    simp only [GetLogs, hn, hz, ne_eq, not_true_eq_false, if_false, hc, hr, hfetched,
      matchBlocks_some, Exec.map]
  refine ⟨hhash, hrange, ?_, ?_⟩
  · intro topics currentHeight hn hz hc he hfuel hfail hok
    have hle := resolveRange_le lib currentHeight args
    have hsucc := fetchRange_succeeds rpc k (resolveRange lib currentHeight args).2 fuel 0
      (resolveRange lib currentHeight args).1 [] (by omega) he hfuel
      (fun d hd => by rw [Nat.zero_add]; exact hok d hd)
    simp only [List.nil_append, Nat.zero_add] at hsucc
    obtain ⟨fetched, fetches, h1, h2⟩ := hrange topics currentHeight _ _ hn hz hc
      (fun j hj => by
        obtain ⟨d, hd, hnone⟩ := hfail j hj
        exact fetchRange_fails rpc j _ fuel 0 _ d [] hd (le_of_lt he) (by omega)
          (by rw [Nat.zero_add]; exact hnone))
      hsucc
    exact ⟨fetched, fetches, h1, h2⟩
  · intro run hrun
    simp only [GetLogs] at hrun
    cases hn : normalizeTopics lib args.Topics with
    | panic p =>
      rw [hn] at hrun
      simp only [Option.some.injEq] at hrun
      subst hrun
      exact Nat.zero_le 5
    | ret v =>
      cases v with
      | error err =>
        rw [hn] at hrun
        simp only [Option.some.injEq] at hrun
        subst hrun
        exact Nat.zero_le 5
      | ok topics =>
        rw [hn] at hrun
        simp only at hrun
        by_cases hb : args.Blockhash = Hash.zero
        · simp only [hb, ne_eq, not_true_eq_false, if_false] at hrun
          cases hc : rpc.GetCurrentHeight with
          | error err =>
            rw [hc] at hrun
            simp only [Option.some.injEq] at hrun
            subst hrun
            exact Nat.zero_le 5
          | ok currentHeight =>
            rw [hc] at hrun
            simp only at hrun
            cases hr : retryRange rpc (resolveRange lib currentHeight args).1
                (resolveRange lib currentHeight args).2 5 fuel 0 [] 0 with
            | none => rw [hr] at hrun; simp at hrun
            | some ex =>
              obtain ⟨state, h1, -, h3, -⟩ := retryRange_done rpc _ _ 5 fuel
                (resolveRange_le lib currentHeight args) 5 0 0 rfl ex hr
              subst h1
              rw [hr] at hrun
              simp only [Option.some.injEq] at hrun
              subst hrun
              exact h3
        · simp only [hb, ne_eq, not_false_eq_true, if_true] at hrun
          obtain ⟨state, h1, h2, -⟩ := retryHash_done rpc args.Blockhash 5 5 0 rfl
          rw [h1] at hrun
          simp only [Option.some.injEq] at hrun
          subst hrun
          exact h2

theorem flakyRPC_attempt_fails (fuel j : Nat) (hj : j < 4) :
    ∃ m, fetchRange flakyRPC j 10 (fuel + 1) 0 8 [] = some (false, [], m) := by
  refine ⟨1, ?_⟩
  rw [fetchRange]
  simp [flakyRPC, hj]

theorem flakyRPC_attempt_succeeds :
    fetchRange flakyRPC 4 10 5 0 8 []
      = some (true, [{ sampleBlock with Height := 8 }, { sampleBlock with Height := 9 },
          { sampleBlock with Height := 10 }].map some, 3) := by
  rfl

/-- C9, an instance: on a chain whose first four attempts fail, the hash-mode
call and the range-mode call for heights 8 to 10 both return with a nil error
after 5 attempts. -/
theorem GetLogs_retry_succeeds_witness :
    GetLogs sampleLib flakyRPC 5 sampleHashArgs
        = some ⟨.ret (matchBlock sampleLib Address.zero [] [] sampleBlock, none), 0, 5, 5⟩
    ∧ ∃ (fetched : List GetBlockResultInner) (fetches : Nat),
        [{ sampleBlock with Height := 8 }, { sampleBlock with Height := 9 },
          { sampleBlock with Height := 10 }].map some = fetched.map some
        ∧ GetLogs sampleLib flakyRPC 5 sampleArgs
          = some ⟨.ret (fetched.foldl (matchBlock sampleLib Address.zero []) [], none), 1, 5,
              fetches⟩ :=
  ⟨(GetLogs_retry_succeeds sampleLib flakyRPC 5 sampleHashArgs 4 (le_refl 4)).1 [] sampleBlock
      rfl (by decide) (fun j hj => by simp [flakyRPC, hj]) rfl,
    (GetLogs_retry_succeeds sampleLib flakyRPC 5 sampleArgs 4 (le_refl 4)).2.1 [] 10 _ 3
      rfl rfl rfl (fun j hj => flakyRPC_attempt_fails 4 j hj) flakyRPC_attempt_succeeds⟩

/-- C10: when the range-mode retry loop, entered with the empty block list, is
left through `break`, the block list is the list of the answers of the native
chain to the requests of the last attempt for the heights `blockStart`,
`blockStart + 1`, ..., `blockEnd`, in this order and each once: it has
`blockEnd - blockStart + 1` entries, none of them nil and none from an earlier
attempt.  This list is the one `GetLogs` hands to log matching. -/
theorem retryRange_success_blocks (rpc : ThetaRPC) (fuel : Nat) :
    (∀ blockStart blockEnd state, blockStart ≤ blockEnd →
      retryRange rpc blockStart blockEnd 5 fuel 0 [] 0 = some (.done state) →
      state.broke = true →
      1 ≤ state.attempts ∧ state.attempts ≤ 5
      ∧ state.value = (List.range (blockEnd - blockStart + 1)).map
          (fun k => rpc.GetBlockByHeight (state.attempts - 1) k (blockStart + k))
      ∧ (∀ k, k < blockEnd - blockStart + 1 →
          (rpc.GetBlockByHeight (state.attempts - 1) k (blockStart + k)).isSome)
      ∧ state.value.length = blockEnd - blockStart + 1)
    ∧ (∀ lib args topics currentHeight state,
      normalizeTopics lib args.Topics = .ret (.ok topics) →
      args.Blockhash = Hash.zero → rpc.GetCurrentHeight = .ok currentHeight →
      retryRange rpc (resolveRange lib currentHeight args).1
        (resolveRange lib currentHeight args).2 5 fuel 0 [] 0 = some (.done state) →
      (resolveRange lib currentHeight args).1 ≤ (resolveRange lib currentHeight args).2
      ∧ GetLogs lib rpc fuel args
        = some ⟨(matchBlocks lib args.Address topics state.value []).map
            (fun result => (result, none)), 1, state.attempts, state.fetches⟩) := by
  constructor
  · intro blockStart blockEnd state hse hr hb
    obtain ⟨st, h1, -, h3, h4, -⟩ := retryRange_done rpc blockStart blockEnd 5 fuel hse 5 0 0 rfl
      _ hr
    cases h1
    obtain ⟨h5, h6, h7⟩ := h4 hb
    exact ⟨by omega, h3, h6, h7, by rw [h6]; simp⟩
  · intro lib args topics currentHeight state hn hz hc hr
    refine ⟨resolveRange_le lib currentHeight args, ?_⟩
    simp only [GetLogs, hn, hz, ne_eq, not_true_eq_false, if_false, hc, hr]

/-- C10, an instance: on a chain whose first four attempts fail, the loop for
heights 8 to 10 is left through `break` in attempt 5 with the three blocks of
that attempt. -/
theorem retryRange_success_blocks_witness :
    ∃ state, retryRange flakyRPC 8 10 5 5 0 [] 0 = some (.done state)
      ∧ state.broke = true ∧ state.attempts = 5
      ∧ state.value = [some { sampleBlock with Height := 8 },
          some { sampleBlock with Height := 9 }, some { sampleBlock with Height := 10 }]
      ∧ state.value.length = 10 - 8 + 1 := by
  obtain ⟨f, hr⟩ := retryRange_succeeds flakyRPC 8 10 5 5 _ 3 4 0 0 (by decide)
    (fun j _ hj => flakyRPC_attempt_fails 4 j hj) flakyRPC_attempt_succeeds
  obtain ⟨-, -, h3, -, h5⟩ := (retryRange_success_blocks flakyRPC 5).1 8 10 _ (by decide) hr rfl
  exact ⟨_, hr, rfl, rfl, rfl, h5⟩

/-! ## Range resolution and matching: further theorems -/

/-- C11: after the swap and the margin the effective start is at most the
effective end, the effective end is the larger of the two resolved heights,
and the effective start is at most the smaller one: it is the smaller one
minus 2, computed without wrapping around, or the smaller one itself. -/
theorem resolveRange_bounds (lib : Lib) (currentHeight : Nat) (args : EthGetLogsArgs) :
    (resolveRange lib currentHeight args).1 ≤ (resolveRange lib currentHeight args).2
    ∧ (resolveRange lib currentHeight args).2
      = max (resolveTag lib currentHeight args.FromBlock)
          (resolveTag lib currentHeight args.ToBlock)
    ∧ (resolveRange lib currentHeight args).1
      ≤ min (resolveTag lib currentHeight args.FromBlock)
          (resolveTag lib currentHeight args.ToBlock)
    ∧ (((resolveRange lib currentHeight args).1 : Int)
        = ((min (resolveTag lib currentHeight args.FromBlock)
            (resolveTag lib currentHeight args.ToBlock) : Nat) : Int) - 2
      ∨ (resolveRange lib currentHeight args).1
        = min (resolveTag lib currentHeight args.FromBlock)
            (resolveTag lib currentHeight args.ToBlock)) := by
  unfold resolveRange
  generalize resolveTag lib currentHeight args.FromBlock = a
  generalize resolveTag lib currentHeight args.ToBlock = b
  unfold swapRange finalityMargin
  by_cases h : a > b
  · simp only [h, if_true]
    split <;> omega
  · simp only [h, if_false]
    split <;> omega

theorem topicLoop_error (lib : Lib) (argsTopics rest : List JSONValue) (topics : List Hash)
    (e : Error) (h : topicLoop lib argsTopics rest topics = .ret (.error e)) :
    e = .invalidTopics argsTopics := by
  induction rest generalizing topics with
  | nil => simp [topicLoop] at h
  | cons val tail ih =>
    cases val with
    | string v => exact ih _ (by simpa [topicLoop] using h)
    | array items =>
      simp only [topicLoop] at h
      cases hnested : nestedTopics lib items topics with
      | ret collected => rw [hnested] at h; exact ih _ h
      | panic p => rw [hnested] at h; simp at h
    | null => simp only [topicLoop, Exec.ret.injEq, Except.error.injEq] at h; exact h.symm
    | bool b => simp only [topicLoop, Exec.ret.injEq, Except.error.injEq] at h; exact h.symm
    | number n => simp only [topicLoop, Exec.ret.injEq, Except.error.injEq] at h; exact h.symm
    | object fields =>
      simp only [topicLoop, Exec.ret.injEq, Except.error.injEq] at h; exact h.symm

theorem GetLogs_error_origin (lib : Lib) (rpc : ThetaRPC) (fuel : Nat) (args : EthGetLogsArgs)
    (run : GetLogsRun) (result : List EthGetLogsResult) (err : Error)
    (hrun : GetLogs lib rpc fuel args = some run) (hexit : run.exit = .ret (result, some err)) :
    err = .invalidTopics args.Topics
    ∨ ∃ msg, rpc.GetCurrentHeight = .error msg ∧ err = .upstream msg := by
  have hmap : ∀ x : Exec (List EthGetLogsResult),
      x.map (fun result => (result, (none : Option Error))) ≠ .ret (result, some err) := by
    intro x hx
    cases x with
    | ret a => simp [Exec.map] at hx
    | panic p => simp [Exec.map] at hx
  simp only [GetLogs] at hrun
  cases hn : normalizeTopics lib args.Topics with
  | panic p =>
    rw [hn] at hrun
    simp only [Option.some.injEq] at hrun
    subst hrun
    simp at hexit
  | ret v =>
    cases v with
    | error e =>
      rw [hn] at hrun
      simp only [Option.some.injEq] at hrun
      subst hrun
      simp only [Exec.ret.injEq, Prod.mk.injEq, Option.some.injEq] at hexit
      have htop : e = .invalidTopics args.Topics :=
        topicLoop_error lib args.Topics args.Topics [] e hn
      exact Or.inl (by rw [← hexit.2, htop])
    | ok topics =>
      rw [hn] at hrun
      simp only at hrun
      by_cases hb : args.Blockhash = Hash.zero
      · simp only [hb, ne_eq, not_true_eq_false, if_false] at hrun
        cases hc : rpc.GetCurrentHeight with
        | error msg =>
          rw [hc] at hrun
          simp only [Option.some.injEq] at hrun
          subst hrun
          simp only [Exec.ret.injEq, Prod.mk.injEq, Option.some.injEq] at hexit
          exact Or.inr ⟨msg, rfl, hexit.2.symm⟩
        | ok currentHeight =>
          rw [hc] at hrun
          simp only at hrun
          cases hr : retryRange rpc (resolveRange lib currentHeight args).1
              (resolveRange lib currentHeight args).2 5 fuel 0 [] 0 with
          | none => rw [hr] at hrun; simp at hrun
          | some ex =>
            obtain ⟨state, h1, -⟩ := retryRange_done rpc _ _ 5 fuel
              (resolveRange_le lib currentHeight args) 5 0 0 rfl ex hr
            subst h1
            rw [hr] at hrun
            simp only [Option.some.injEq] at hrun
            subst hrun
            exact absurd hexit (hmap _)
      · simp only [hb, ne_eq, not_false_eq_true, if_true] at hrun
        obtain ⟨state, h1, -⟩ := retryHash_done rpc args.Blockhash 5 5 0 rfl
        rw [h1] at hrun
        simp only [Option.some.injEq] at hrun
        subst hrun
        exact absurd hexit (hmap _)

/-- C12: each end of the range resolves, before the swap and the margin, to the
current height when its tag is empty, to the current height when the resolver
yields `math.MaxUint64`, and to the height the resolver yields otherwise; the
range loop is entered with the pair made of these two heights.  An error
returned by `GetLogs` is the topic error or the error of the current-height
query, never one of tag resolution. -/
theorem GetLogs_tag_resolution (lib : Lib) (rpc : ThetaRPC) (fuel : Nat) (args : EthGetLogsArgs)
    (currentHeight : Nat) :
    (∀ tag, (tag = "" → resolveTag lib currentHeight tag = currentHeight)
      ∧ (tag ≠ "" → lib.GetHeightByTag tag = MaxUint64 →
          resolveTag lib currentHeight tag = currentHeight)
      ∧ (tag ≠ "" → lib.GetHeightByTag tag ≠ MaxUint64 →
          resolveTag lib currentHeight tag = lib.GetHeightByTag tag))
    ∧ resolveRange lib currentHeight args
      = (finalityMargin (swapRange (resolveTag lib currentHeight args.FromBlock)
            (resolveTag lib currentHeight args.ToBlock)).1,
          (swapRange (resolveTag lib currentHeight args.FromBlock)
            (resolveTag lib currentHeight args.ToBlock)).2)
    ∧ (∀ run result err, GetLogs lib rpc fuel args = some run →
        run.exit = .ret (result, some err) →
        err = .invalidTopics args.Topics
        ∨ ∃ msg, rpc.GetCurrentHeight = .error msg ∧ err = .upstream msg) := by
  refine ⟨fun tag => ⟨?_, ?_, ?_⟩, rfl, ?_⟩
  · intro h
    simp [resolveTag, h]
  · intro h1 h2
    simp [resolveTag, h1, h2]
  · intro h1 h2
    simp [resolveTag, h1, h2]
  · intro run result err hrun hexit
    exact GetLogs_error_origin lib rpc fuel args run result err hrun hexit

/-- C12, an instance: at current height 10 the empty tag and the unresolvable
tag `latest` resolve to 10 and the tag `earliest` resolves to 1. -/
theorem GetLogs_tag_resolution_witness :
    resolveTag sampleLib 10 "" = 10
    ∧ resolveTag sampleLib 10 "latest" = 10
    ∧ resolveTag sampleLib 10 "earliest" = 1 :=
  ⟨((GetLogs_tag_resolution sampleLib failingRPC 0 sampleArgs 10).1 "").1 rfl,
    ((GetLogs_tag_resolution sampleLib failingRPC 0 sampleArgs 10).1 "latest").2.1
      (by decide) (by decide),
    ((GetLogs_tag_resolution sampleLib failingRPC 0 sampleArgs 10).1 "earliest").2.2
      (by decide) (by decide)⟩

theorem mem_matchTx (lib : Lib) (address : Address) (topics : List Hash)
    (block : GetBlockResultInner) (txIndex : Nat) (tx : Tx) (r : EthGetLogsResult)
    (h : r ∈ matchTx lib address topics block [] txIndex tx) :
    tx.Type_ = lib.TxSmartContract
    ∧ ∃ receipt, tx.Receipt = some receipt
      ∧ ∃ logIndex log, receipt.Logs[logIndex]? = some log
        ∧ r = newResult lib block txIndex tx receipt logIndex log := by
  unfold matchTx at h
  split at h
  · simp at h
  · rename_i hty
    refine ⟨not_not.mp hty, ?_⟩
    split at h
    · simp at h
    · rename_i receipt hreceipt
      split at h
      · simp at h
      · rw [logLoop_eq, List.nil_append, List.mem_flatMap] at h
        obtain ⟨entry, hentry, hin⟩ := h
        rw [matchLog_eq, List.nil_append] at hin
        exact ⟨receipt, hreceipt, entry.1, entry.2, List.mem_enum_iff_getElem?.mp hentry,
          List.eq_of_mem_replicate hin⟩

theorem foldl_matchBlock (lib : Lib) (address : Address) (topics : List Hash)
    (fetched : List GetBlockResultInner) (result : List EthGetLogsResult) :
    fetched.foldl (matchBlock lib address topics) result
      = result ++ fetched.flatMap (matchBlock lib address topics []) :=
  foldl_append_flatMap (matchBlock lib address topics)
    (fun acc block => by
      rw [matchBlock_eq lib address topics acc, matchBlock_eq lib address topics []]
      simp)
    fetched result

/-- C13: a transaction of any kind other than smart-contract, and a
smart-contract transaction with a nil receipt, adds no record.  Matching a list
of fetched blocks returns, and every record it returns is the record of a log
of a smart-contract transaction of one of the blocks whose receipt is present.
An error returned by `GetLogs` is the topic error or the error of the
current-height query, never one raised by a missing receipt. -/
theorem matchBlocks_sources (lib : Lib) (address : Address) (topics : List Hash) :
    (∀ block result txIndex tx, tx.Type_ ≠ lib.TxSmartContract →
      matchTx lib address topics block result txIndex tx = result)
    ∧ (∀ block result txIndex tx, tx.Receipt = none →
      matchTx lib address topics block result txIndex tx = result)
    ∧ (∀ fetched : List GetBlockResultInner, ∃ records,
      matchBlocks lib address topics (fetched.map some) [] = .ret records
      ∧ ∀ r ∈ records, ∃ block ∈ fetched, ∃ txIndex tx receipt logIndex log,
          block.Txs[txIndex]? = some tx ∧ tx.Type_ = lib.TxSmartContract
          ∧ tx.Receipt = some receipt ∧ receipt.Logs[logIndex]? = some log
          ∧ r = newResult lib block txIndex tx receipt logIndex log)
    ∧ (∀ rpc fuel args run result err, GetLogs lib rpc fuel args = some run →
        run.exit = .ret (result, some err) →
        err = .invalidTopics args.Topics
        ∨ ∃ msg, rpc.GetCurrentHeight = .error msg ∧ err = .upstream msg) := by
  refine ⟨?_, ?_, ?_, ?_⟩
  · intro block result txIndex tx h
    simp [matchTx, h]
  · intro block result txIndex tx h
    unfold matchTx
    split
    · rfl
    · simp [h]
  · intro fetched
    refine ⟨_, matchBlocks_some lib address topics fetched [], ?_⟩
    intro r hr
    rw [foldl_matchBlock, List.nil_append, List.mem_flatMap] at hr
    obtain ⟨block, hblock, hr⟩ := hr
    rw [matchBlock_eq, List.nil_append, List.mem_flatMap] at hr
    obtain ⟨entry, hentry, hr⟩ := hr
    obtain ⟨hty, receipt, hreceipt, logIndex, log, hlog, heq⟩ :=
      mem_matchTx lib address topics block entry.1 entry.2 r hr
    exact ⟨block, hblock, entry.1, entry.2, receipt, logIndex, log,
      List.mem_enum_iff_getElem?.mp hentry, hty, hreceipt, hlog, heq⟩
  · intro rpc fuel args run result err hrun hexit
    exact GetLogs_error_origin lib rpc fuel args run result err hrun hexit

/-- C13, an instance: neither a smart-contract transaction without a receipt nor
a transaction of another kind adds a record. -/
theorem matchBlocks_sources_witness :
    matchTx sampleLib Address.zero [] sampleBlock [] 0 sampleTxOtherKind = []
    ∧ matchTx sampleLib Address.zero [] sampleBlock [] 1 sampleTxNoReceipt = [] :=
  ⟨(matchBlocks_sources sampleLib Address.zero []).1 sampleBlock [] 0 sampleTxOtherKind
      (by decide),
    (matchBlocks_sources sampleLib Address.zero []).2.1 sampleBlock [] 1 sampleTxNoReceipt rfl⟩

theorem flatMap_singleton_eq_map {α β : Type} (f : α → β) (xs : List α) :
    xs.flatMap (fun x => [f x]) = xs.map f := by
  induction xs with
  | nil => rfl
  | cons x rest ih => simp [List.flatMap_cons, ih]

theorem matchTx_no_filter (lib : Lib) (block : GetBlockResultInner) (txIndex : Nat) (tx : Tx) :
    matchTx lib Address.zero [] block [] txIndex tx
      = if tx.Type_ = lib.TxSmartContract then
          match tx.Receipt with
          | none => []
          | some receipt =>
            receipt.Logs.enum.map fun logEntry =>
              newResult lib block txIndex tx receipt logEntry.1 logEntry.2
        else [] := by
  unfold matchTx
  by_cases hty : tx.Type_ = lib.TxSmartContract
  · simp only [hty, ne_eq, not_true_eq_false, if_false, if_true, false_and]
    cases tx.Receipt with
    | none => rfl
    | some receipt =>
      simp only
      rw [logLoop_eq, List.nil_append]
      have hlog : ∀ entry : Nat × Log,
          matchLog lib [] block txIndex tx receipt [] entry.1 entry.2
            = [newResult lib block txIndex tx receipt entry.1 entry.2] := by
        intro entry
        simp [matchLog]
      simp only [hlog]
      exact flatMap_singleton_eq_map _ _
  · simp [hty]

theorem matchBlocks_no_filter (lib : Lib) (fetched : List GetBlockResultInner) :
    matchBlocks lib Address.zero [] (fetched.map some) [] = .ret (allLogRecords lib fetched) := by
  rw [matchBlocks_some, foldl_matchBlock, List.nil_append]
  unfold allLogRecords
  congr 2
  funext block
  rw [matchBlock_eq, List.nil_append]
  congr 1
  funext entry
  rw [matchTx_no_filter]
  rfl

/-- C14: with an empty topic filter and the zero address filter, matching a
list of fetched blocks returns exactly one record per log of every
smart-contract transaction with a receipt, in block, transaction and log
order, each with `Removed` false, the encoded positions of the log and of the
transaction, the hash and height of the block, the hash of the transaction,
the contract address of the receipt and the topics and encoded data of the
log.  Every result `GetLogs` returns without error for such filters has this
form for the blocks it fetched. -/
theorem matchBlocks_all_logs (lib : Lib) :
    (∀ fetched : List GetBlockResultInner,
      matchBlocks lib Address.zero [] (fetched.map some) [] = .ret (allLogRecords lib fetched))
    ∧ (∀ rpc fuel args run records, args.Topics = [] → args.Address = Address.zero →
      GetLogs lib rpc fuel args = some run → run.exit = .ret (records, none) →
      ∃ fetched, records = allLogRecords lib fetched) := by
  refine ⟨matchBlocks_no_filter lib, ?_⟩
  intro rpc fuel args run records htopics haddress hrun hexit
  have hn : normalizeTopics lib args.Topics = .ret (.ok []) := by rw [htopics]; rfl
  have hfinish : ∀ fetched : List GetBlockResultInner,
      (matchBlocks lib Address.zero [] (fetched.map some) []).map
          (fun result => (result, (none : Option Error))) = .ret (records, none) →
      records = allLogRecords lib fetched := by
    intro fetched h
    rw [matchBlocks_no_filter] at h
    simp only [Exec.map, Exec.ret.injEq, Prod.mk.injEq, and_true] at h
    exact h.symm
  simp only [GetLogs, hn, haddress] at hrun
  by_cases hb : args.Blockhash = Hash.zero
  · simp only [hb, ne_eq, not_true_eq_false, if_false] at hrun
    cases hc : rpc.GetCurrentHeight with
    | error msg =>
      rw [hc] at hrun
      simp only [Option.some.injEq] at hrun
      subst hrun
      simp at hexit
    | ok currentHeight =>
      rw [hc] at hrun
      simp only at hrun
      cases hr : retryRange rpc (resolveRange lib currentHeight args).1
          (resolveRange lib currentHeight args).2 5 fuel 0 [] 0 with
      | none => rw [hr] at hrun; simp at hrun
      | some ex =>
        obtain ⟨state, h1, -, -, h4, h5⟩ := retryRange_done rpc _ _ 5 fuel
          (resolveRange_le lib currentHeight args) 5 0 0 rfl ex hr
        subst h1
        rw [hr] at hrun
        simp only [Option.some.injEq] at hrun
        subst hrun
        simp only at hexit
        cases hbroke : state.broke with
        | false =>
          rw [(h5 hbroke).1] at hexit
          exact ⟨[], hfinish [] hexit⟩
        | true =>
          obtain ⟨-, h6, h7⟩ := h4 hbroke
          obtain ⟨fetched, hfetched⟩ := all_some_eq_map state.value (by
            intro x hx
            rw [h6, List.mem_map] at hx
            obtain ⟨d, hd, rfl⟩ := hx
            exact h7 d (List.mem_range.mp hd))
          rw [hfetched] at hexit
          exact ⟨fetched, hfinish fetched hexit⟩
  · simp only [hb, ne_eq, not_false_eq_true, if_true] at hrun
    obtain ⟨state, h1, -⟩ := retryHash_done rpc args.Blockhash 5 5 0 rfl
    rw [h1] at hrun
    simp only [Option.some.injEq] at hrun
    subst hrun
    simp only [List.nil_append] at hexit
    cases hv : state.value with
    | none =>
      rw [hv] at hexit
      simp [matchBlocks, Exec.map] at hexit
    | some block =>
      rw [hv] at hexit
      exact ⟨[block], hfinish [block] hexit⟩

theorem GetLogs_first_attempt (lib : Lib) (rpc : ThetaRPC) (fuel : Nat) (args : EthGetLogsArgs)
    (topics : List Hash) (block : GetBlockResultInner)
    (hn : normalizeTopics lib args.Topics = .ret (.ok topics)) (hz : args.Blockhash ≠ Hash.zero)
    (hok : rpc.GetBlock 0 args.Blockhash = some block) :
    GetLogs lib rpc fuel args
      = some ⟨.ret (matchBlock lib args.Address topics [] block, none), 0, 1, 1⟩ := by
  have hr := retryHash_first_attempt rpc args.Blockhash 5 block (by decide) hok
  simp only [GetLogs, hn, hz, ne_eq, not_false_eq_true, if_true, hr, List.nil_append,
    matchBlocks, Exec.map]

/-- C14, an instance: the hash-mode call without filters on the chain that
serves `sampleBlock` returns the one record of the one log of the block. -/
theorem matchBlocks_all_logs_witness :
    matchBlocks sampleLib Address.zero [] [some sampleBlock] []
      = .ret (allLogRecords sampleLib [sampleBlock])
    ∧ (allLogRecords sampleLib [sampleBlock]).length = 1
    ∧ ∃ fetched, matchBlock sampleLib Address.zero [] [] sampleBlock
        = allLogRecords sampleLib fetched :=
  ⟨(matchBlocks_all_logs sampleLib).1 [sampleBlock], by decide,
    (matchBlocks_all_logs sampleLib).2 servingRPC 0 sampleHashArgs
      ⟨.ret (matchBlock sampleLib Address.zero [] [] sampleBlock, none), 0, 1, 1⟩ _ rfl rfl
      (GetLogs_first_attempt sampleLib servingRPC 0 sampleHashArgs [] sampleBlock rfl
        (by decide) rfl) rfl⟩

theorem retryHash_congr (rpc rpc2 : ThetaRPC) (Blockhash : Hash) (maxRetry d i : Nat)
    (hd : i + d = maxRetry) (h : ∀ j, rpc2.GetBlock j Blockhash = rpc.GetBlock j Blockhash) :
    retryHash rpc2 Blockhash maxRetry i = retryHash rpc Blockhash maxRetry i := by
  induction d generalizing i with
  | zero =>
    have h1 : ¬ (i < maxRetry) := by omega
    rw [retryHash, retryHash.eq_1 rpc]
    simp only [h1, if_false]
  | succ d ih =>
    have h1 : i < maxRetry := by omega
    have h2 : ¬ (i = maxRetry) := by omega
    rw [retryHash, retryHash.eq_1 rpc]
    simp only [h1, h2, if_true, if_false, h i]
    cases rpc.GetBlock i Blockhash with
    | none => exact ih (i + 1) (by omega)
    | some block => rfl

theorem retryHash_done_value (rpc : ThetaRPC) (Blockhash : Hash) (maxRetry d i : Nat)
    (hd : i + d = maxRetry) :
    ∃ state, retryHash rpc Blockhash maxRetry i = .done state
      ∧ ∀ block, state.value = some block →
          1 ≤ state.attempts ∧ state.attempts ≤ maxRetry
          ∧ rpc.GetBlock (state.attempts - 1) Blockhash = some block := by
  induction d generalizing i with
  | zero =>
    rw [retryHash]
    have h1 : ¬ (i < maxRetry) := by omega
    simp only [h1, if_false]
    exact ⟨_, rfl, fun block hb => by simp at hb⟩
  | succ d ih =>
    rw [retryHash]
    have h1 : i < maxRetry := by omega
    have h2 : ¬ (i = maxRetry) := by omega
    simp only [h1, h2, if_true, if_false]
    cases hg : rpc.GetBlock i Blockhash with
    | none => exact ih (i + 1) (by omega)
    | some fetched =>
      refine ⟨_, rfl, fun block hb => ?_⟩
      simp only [Option.some.injEq] at hb
      subst hb
      exact ⟨by show 1 ≤ i + 1; omega, by show i + 1 ≤ maxRetry; omega, by
        show rpc.GetBlock (i + 1 - 1) Blockhash = some fetched
        rw [Nat.add_sub_cancel]; exact hg⟩

/-- C18: with a non-zero block hash `GetLogs` ends in the same way for every
`fromBlock` and `toBlock`, every answer of the chain to the current-height
query and to requests by height, and every fuel: it depends on the answers to
the requests for that hash only, does not query the current height, and a
result it returns is matched from the one block that the last request for the
hash yielded.  With the zero hash and a well-formed topic filter it queries
the current height. -/
theorem GetLogs_hash_mode (lib : Lib) (rpc : ThetaRPC) (fuel : Nat) (args : EthGetLogsArgs) :
    (args.Blockhash ≠ Hash.zero → ∀ (rpc2 : ThetaRPC) (fuel2 : Nat) (fromBlock toBlock : String),
      (∀ i, rpc2.GetBlock i args.Blockhash = rpc.GetBlock i args.Blockhash) →
      GetLogs lib rpc2 fuel2 { args with FromBlock := fromBlock, ToBlock := toBlock }
        = GetLogs lib rpc fuel args)
    ∧ (args.Blockhash ≠ Hash.zero → ∃ run, GetLogs lib rpc fuel args = some run
      ∧ run.heightQueries = 0
      ∧ ∀ records, run.exit = .ret (records, none) →
          ∃ block topics, 1 ≤ run.attempts ∧ run.attempts ≤ 5
            ∧ rpc.GetBlock (run.attempts - 1) args.Blockhash = some block
            ∧ normalizeTopics lib args.Topics = .ret (.ok topics)
            ∧ records = matchBlock lib args.Address topics [] block)
    ∧ (args.Blockhash = Hash.zero → ∀ topics run,
      normalizeTopics lib args.Topics = .ret (.ok topics) →
      GetLogs lib rpc fuel args = some run → run.heightQueries = 1) := by
  refine ⟨?_, ?_, ?_⟩
  · intro hz rpc2 fuel2 fromBlock toBlock h
    simp only [GetLogs, hz, ne_eq, not_false_eq_true, if_true,
      retryHash_congr rpc rpc2 args.Blockhash 5 5 0 rfl h]
  · intro hz
    simp only [GetLogs]
    cases hn : normalizeTopics lib args.Topics with
    | panic p => exact ⟨_, rfl, rfl, fun records h => by simp at h⟩
    | ret v =>
      cases v with
      | error e => exact ⟨_, rfl, rfl, fun records h => by simp at h⟩
      | ok topics =>
        obtain ⟨state, h1, h2⟩ := retryHash_done_value rpc args.Blockhash 5 5 0 rfl
        simp only [hz, ne_eq, not_false_eq_true, if_true, h1, List.nil_append]
        refine ⟨_, rfl, rfl, fun records h => ?_⟩
        simp only at h
        cases hv : state.value with
        | none =>
          rw [hv] at h
          simp [matchBlocks, Exec.map] at h
        | some block =>
          rw [hv] at h
          simp only [matchBlocks, Exec.map, Exec.ret.injEq, Prod.mk.injEq, and_true] at h
          obtain ⟨h3, h4, h5⟩ := h2 block hv
          exact ⟨block, topics, h3, h4, h5, rfl, h.symm⟩
  · intro hz topics run hn hrun
    simp only [GetLogs, hn, hz, ne_eq, not_true_eq_false, if_false] at hrun
    cases hc : rpc.GetCurrentHeight with
    | error msg =>
      rw [hc] at hrun
      simp only [Option.some.injEq] at hrun
      subst hrun
      rfl
    | ok currentHeight =>
      rw [hc] at hrun
      simp only at hrun
      cases hr : retryRange rpc (resolveRange lib currentHeight args).1
          (resolveRange lib currentHeight args).2 5 fuel 0 [] 0 with
      | none => rw [hr] at hrun; simp at hrun
      | some ex =>
        rw [hr] at hrun
        cases ex with
        | returned err attempts fetches =>
          simp only [Option.some.injEq] at hrun
          subst hrun
          rfl
        | done state =>
          simp only [Option.some.injEq] at hrun
          subst hrun
          rfl

/-- C18, an instance: the hash-mode call ends in the same way with other tags
on a chain whose current-height query fails. -/
theorem GetLogs_hash_mode_witness :
    sampleHashArgs.Blockhash ≠ Hash.zero
    ∧ GetLogs sampleLib hashOnlyRPC 7
        { sampleHashArgs with FromBlock := "earliest", ToBlock := "latest" }
      = GetLogs sampleLib servingRPC 0 sampleHashArgs :=
  ⟨by decide, (GetLogs_hash_mode sampleLib servingRPC 0 sampleHashArgs).1 (by decide)
    hashOnlyRPC 7 "earliest" "latest" (fun _ => rfl)⟩

/-! ## `GetTransactionIndex`: theorems -/

theorem scanTxs_none (transactionHash : Hash) (txs : List CommonTx) (start : Nat) :
    scanTxs transactionHash txs start = none ↔ ∀ tx ∈ txs, tx.Hash ≠ transactionHash := by
  induction txs generalizing start with
  | nil => simp [scanTxs]
  | cons tx rest ih =>
    unfold scanTxs
    by_cases h : tx.Hash = transactionHash
    · simp [h]
    · simp [h, ih]

theorem scanTxs_some (transactionHash : Hash) (txs : List CommonTx) (start i : Nat) :
    scanTxs transactionHash txs start = some i
      ↔ ∃ k, i = start + k ∧ (∃ tx, txs[k]? = some tx ∧ tx.Hash = transactionHash)
          ∧ ∀ j, j < k → ∀ tx, txs[j]? = some tx → tx.Hash ≠ transactionHash := by
  induction txs generalizing start with
  | nil => simp [scanTxs]
  | cons tx rest ih =>
    unfold scanTxs
    by_cases h : tx.Hash = transactionHash
    · simp only [h, if_true, Option.some.injEq]
      constructor
      · intro e
        exact ⟨0, by omega, ⟨tx, List.getElem?_cons_zero, h⟩, fun j hj => by omega⟩
      · rintro ⟨k, hk, -, hbefore⟩
        cases k with
        | zero => omega
        | succ k => exact absurd h (hbefore 0 (by omega) tx List.getElem?_cons_zero)
    · simp only [h, if_false, ih]
      constructor
      · rintro ⟨k, hk, ⟨found, hfound, hhash⟩, hbefore⟩
        refine ⟨k + 1, by omega, ⟨found, by simpa using hfound, hhash⟩, ?_⟩
        intro j hj other hother
        cases j with
        | zero =>
          simp only [List.getElem?_cons_zero, Option.some.injEq] at hother
          subst hother
          exact h
        | succ j => exact hbefore j (by omega) other (by simpa using hother)
      · rintro ⟨k, hk, ⟨found, hfound, hhash⟩, hbefore⟩
        cases k with
        | zero =>
          simp only [List.getElem?_cons_zero, Option.some.injEq] at hfound
          subst hfound
          exact absurd hhash h
        | succ k =>
          refine ⟨k, by omega, ⟨found, by simpa using hfound, hhash⟩, ?_⟩
          intro j hj other hother
          exact hbefore (j + 1) (by omega) other (by simpa using hother)

/-- C17: when the block request returns the transaction list `transactions`
(an absent list counting as empty), `GetTransactionIndex` returns the index
`i` without error exactly when `i` is the smallest position whose transaction
has the hash asked for, and it returns the error `could not find hash for tx`
exactly when no transaction of the list has that hash; it returns no other
error. -/
theorem GetTransactionIndex_spec (blockHash transactionHash : Hash) (client : ThetaTxRPC)
    (transactions : Option (List CommonTx)) (hr : client.GetBlock blockHash = .ok transactions) :
    (∀ i, GetTransactionIndex blockHash transactionHash client = (i, none)
      ↔ (∃ tx, (transactions.getD [])[i]? = some tx ∧ tx.Hash = transactionHash)
        ∧ ∀ j, j < i → ∀ tx, (transactions.getD [])[j]? = some tx → tx.Hash ≠ transactionHash)
    ∧ ((GetTransactionIndex blockHash transactionHash client).2 = some .notFound
      ↔ ∀ tx ∈ transactions.getD [], tx.Hash ≠ transactionHash)
    ∧ (∀ err, (GetTransactionIndex blockHash transactionHash client).2 = some err →
        err = .notFound) := by
  have hG : GetTransactionIndex blockHash transactionHash client
      = match scanTxs transactionHash (transactions.getD []) 0 with
        | some i => (i, none)
        | none => (0, some .notFound) := by
    unfold GetTransactionIndex
    rw [hr]
    cases transactions <;> rfl
  rw [hG]
  cases hscan : scanTxs transactionHash (transactions.getD []) 0 with
  | none =>
    have hnone := (scanTxs_none transactionHash _ 0).mp hscan
    refine ⟨fun i => ?_, ?_, ?_⟩
    · simp only [Prod.mk.injEq, reduceCtorEq, and_false, false_iff]
      rintro ⟨⟨tx, htx, hhash⟩, -⟩
      exact hnone tx (List.getElem?_mem htx) hhash
    · simp only [true_iff]
      exact hnone
    · intro err h
      simp only [Option.some.injEq] at h
      exact h.symm
  | some found =>
    have hsome := (scanTxs_some transactionHash _ 0 found).mp hscan
    obtain ⟨k, hk, hfound, hbefore⟩ := hsome
    have hk2 : found = k := by omega
    subst hk2
    refine ⟨fun i => ?_, ?_, ?_⟩
    · simp only [Prod.mk.injEq, and_true]
      constructor
      · intro e
        subst e
        exact ⟨hfound, hbefore⟩
      · rintro ⟨⟨tx, htx, hhash⟩, hmin⟩
        obtain ⟨tx2, htx2, hhash2⟩ := hfound
        by_contra hne
        rcases Nat.lt_or_gt_of_ne hne with hlt | hgt
        · exact hmin found hlt tx2 htx2 hhash2
        · exact hbefore i hgt tx htx hhash
    · simp only [reduceCtorEq, false_iff, not_forall, not_not]
      obtain ⟨tx, htx, hhash⟩ := hfound
      exact ⟨tx, List.getElem?_mem htx, hhash⟩
    · intro err h
      simp at h

/-- C17, an instance: in the list with the hashes 1, 2, 2 the transaction with
hash 2 has index 1, the smallest position that holds it. -/
theorem GetTransactionIndex_spec_witness :
    GetTransactionIndex (sampleHash 3) (sampleHash 2) (sampleClient 2 0 0 []) = (1, none)
    ∧ ∀ j, j < 1 → ∀ tx,
        ((some [⟨sampleHash 1⟩, ⟨sampleHash 2⟩, ⟨sampleHash 2⟩] :
          Option (List CommonTx)).getD [])[j]? = some tx → tx.Hash ≠ sampleHash 2 :=
  ⟨rfl, (((GetTransactionIndex_spec (sampleHash 3) (sampleHash 2) (sampleClient 2 0 0 []) _
    rfl).1 1).mp rfl).2⟩

/-! ## `GetTransactionByHash`: theorems -/

theorem GetRSVfromSignature_long (data : List Byte) (txResult : EthGetTransactionResult)
    (h : 65 ≤ data.length) :
    ∃ out, GetRSVfromSignature data txResult = .ret (out, none)
      ∧ out.R.bytes = data.take 32
      ∧ out.S.bytes = (data.drop 32).take 32
      ∧ (∃ v, data[64]? = some v ∧ out.V = v.val)
      ∧ out = { txResult with R := out.R, S := out.S, V := out.V } := by
  have hv : data[64]? = some (data[64]) := List.getElem?_eq_getElem (by omega)
  have h32 : (data.take 32).length = 32 := by simp; omega
  have hR : copy txResult.R.bytes (data.take 32) = data.take 32 := by
    simp only [copy, txResult.R.size, h32, List.drop_of_length_le (le_of_eq txResult.R.size),
      List.append_nil]
    exact List.take_of_length_le (le_of_eq h32)
  have hS : copy txResult.S.bytes ((data.take 64).drop 32) = (data.drop 32).take 32 := by
    have e : (data.take 64).drop 32 = (data.drop 32).take 32 := by
      rw [List.drop_take]
    have hl : ((data.drop 32).take 32).length = 32 := by simp; omega
    rw [e]
    simp only [copy, txResult.S.size, hl, List.drop_of_length_le (le_of_eq txResult.S.size),
      List.append_nil]
    exact List.take_of_length_le (le_of_eq hl)
  refine ⟨{ txResult with
      R := txResult.R.copyFrom ((data.take 32).drop 0)
      S := txResult.S.copyFrom ((data.take 64).drop 32)
      V := (data[64]).val }, ?_, ?_, ?_, ⟨data[64], hv, rfl⟩, rfl⟩
  · have h1 : 32 ≤ data.length := by omega
    have h2 : 64 ≤ data.length := by omega
    simp [GetRSVfromSignature, slice, index, Exec.bind, h1, h2, hv]
  · simpa [Hash.copyFrom] using hR
  · simpa [Hash.copyFrom] using hS

theorem GetRSVfromSignature_panic_kind (data : List Byte) (txResult : EthGetTransactionResult)
    (h : data.length < 65) :
    GetRSVfromSignature data txResult = .panic .sliceOutOfRange
    ∨ GetRSVfromSignature data txResult = .panic .indexOutOfRange := by
  unfold GetRSVfromSignature slice index
  by_cases h1 : 32 ≤ data.length
  · by_cases h2 : 64 ≤ data.length
    · have h3 : data[64]? = none := by
        rw [List.getElem?_eq_none_iff]; omega
      simp [Exec.bind, h1, h2, h3]
    · simp [Exec.bind, h1, h2]
  · simp [Exec.bind, h1]

theorem parse_send (lib : Lib) (response : GetTransactionResponse) (raw : RawTransaction)
    (hd : lib.TxSend ≠ lib.TxSmartContract) (hty : response.Type_ = lib.TxSend)
    (htx : response.transaction = some raw) :
    GetTransactionByHash.parse lib response
      = ⟨response.BlockHash, response.BlockHeight, response.TxHash, response.Type_,
          some (.sendTx raw.asSendTx)⟩ := by
  simp [GetTransactionByHash.parse, htx, hty, hd]

theorem parse_smartContract (lib : Lib) (response : GetTransactionResponse)
    (raw : RawTransaction) (hd : lib.TxSend ≠ lib.TxSmartContract)
    (hty : response.Type_ = lib.TxSmartContract) (htx : response.transaction = some raw) :
    GetTransactionByHash.parse lib response
      = ⟨response.BlockHash, response.BlockHeight, response.TxHash, response.Type_,
          some (.smartContractTx raw.asSmartContractTx)⟩ := by
  have hd2 : ¬ (lib.TxSmartContract = lib.TxSend) := fun e => hd e.symm
  simp [GetTransactionByHash.parse, htx, hty, hd2]

theorem parse_other (lib : Lib) (response : GetTransactionResponse)
    (h1 : response.Type_ ≠ lib.TxSend) (h2 : response.Type_ ≠ lib.TxSmartContract) :
    GetTransactionByHash.parse lib response
      = ⟨response.BlockHash, response.BlockHeight, response.TxHash, response.Type_, none⟩ := by
  unfold GetTransactionByHash.parse
  cases response.transaction with
  | none => rfl
  | some raw => simp [h1, h2]

theorem bind_ret {α : Type} (x : Exec α) : x.bind (fun a => .ret a) = x := by
  cases x <;> rfl

theorem GetTransactionByHash_send_eq (lib : Lib) (client : ThetaTxRPC) (hashStr : String)
    (response : GetTransactionResponse) (raw : RawTransaction)
    (hd : lib.TxSend ≠ lib.TxSmartContract) (hr : client.GetTransaction hashStr = .ok response)
    (hty : response.Type_ = lib.TxSend) (htx : response.transaction = some raw) :
    GetTransactionByHash lib client hashStr
      = (translateSend raw.asSendTx
          { EthGetTransactionResult.zero with
            BlockHash := response.BlockHash
            BlockHeight := response.BlockHeight
            TxHash := response.TxHash }).bind fun result =>
        .ret ({ result with
            TransactionIndex := (GetTransactionIndex result.BlockHash result.TxHash client).1 },
          (GetTransactionIndex result.BlockHash result.TxHash client).2) := by
  have hne : ¬ (lib.TxSend = lib.TxSmartContract) := hd
  simp only [GetTransactionByHash, hr, parse_send lib response raw hd hty htx, translate, hty,
    if_true, hne, if_false, bind_ret]

theorem GetTransactionByHash_smartContract_eq (lib : Lib) (client : ThetaTxRPC)
    (hashStr : String) (response : GetTransactionResponse) (raw : RawTransaction)
    (hd : lib.TxSend ≠ lib.TxSmartContract) (hr : client.GetTransaction hashStr = .ok response)
    (hty : response.Type_ = lib.TxSmartContract) (htx : response.transaction = some raw) :
    GetTransactionByHash lib client hashStr
      = (translateSmartContract raw.asSmartContractTx
          { EthGetTransactionResult.zero with
            BlockHash := response.BlockHash
            BlockHeight := response.BlockHeight
            TxHash := response.TxHash }).bind fun result =>
        .ret ({ result with
            TransactionIndex := (GetTransactionIndex result.BlockHash result.TxHash client).1 },
          (GetTransactionIndex result.BlockHash result.TxHash client).2) := by
  have hne : ¬ (lib.TxSmartContract = lib.TxSend) := fun e => hd e.symm
  simp only [GetTransactionByHash, hr, parse_smartContract lib response raw hd hty htx,
    translate, hty, if_true, hne, if_false, Exec.bind]

theorem translateSend_eq (tx : SendTx) (result : EthGetTransactionResult) (input : TxInput)
    (inputs : List TxInput) (output : TxOutput) (outputs : List TxOutput)
    (hin : tx.Inputs = input :: inputs) (hout : tx.Outputs = output :: outputs) :
    translateSend tx result
      = (GetRSVfromSignature input.Signature
          { result with
            From := input.Address
            To := output.Address
            Gas := bigUint64 tx.Fee.TFuelWei
            Value := bigUint64 input.Coins.TFuelWei }).bind fun out => .ret out.1 := by
  simp [translateSend, indexAt, hin, hout, Exec.bind]

theorem bigUint64_of_fits (x : Int) (h0 : 0 ≤ x) (h1 : x < 2 ^ 64) : (bigUint64 x : Int) = x := by
  unfold bigUint64
  have h2 : x.natAbs < 2 ^ 64 := by omega
  rw [Nat.mod_eq_of_lt h2]
  omega

theorem translateSend_ok (tx : SendTx) (result : EthGetTransactionResult) (input : TxInput)
    (inputs : List TxInput) (output : TxOutput) (outputs : List TxOutput)
    (hin : tx.Inputs = input :: inputs) (hout : tx.Outputs = output :: outputs)
    (hsig : 65 ≤ input.Signature.length) :
    ∃ out, translateSend tx result = .ret out
      ∧ out.R.bytes = input.Signature.take 32
      ∧ out.S.bytes = (input.Signature.drop 32).take 32
      ∧ (∃ v, input.Signature[64]? = some v ∧ out.V = v.val)
      ∧ out = { result with
          From := input.Address
          To := output.Address
          Gas := bigUint64 tx.Fee.TFuelWei
          Value := bigUint64 input.Coins.TFuelWei
          R := out.R
          S := out.S
          V := out.V } := by
  obtain ⟨out, h1, h2, h3, h4, h5⟩ := GetRSVfromSignature_long input.Signature
    { result with
      From := input.Address
      To := output.Address
      Gas := bigUint64 tx.Fee.TFuelWei
      Value := bigUint64 input.Coins.TFuelWei } hsig
  refine ⟨out, ?_, h2, h3, h4, h5⟩
  rw [translateSend_eq tx result input inputs output outputs hin hout, h1]
  rfl

/-- C15, as amended: for a value-transfer transaction with at least one input
and one output whose first input carries a signature of at least 65 bytes,
`GetTransactionByHash` returns a record with sender = the address of the first
input, recipient = the address of the first output, gas = the fee amount and
value = the coin amount of the first input whenever these amounts are
non-negative and below `2 ^ 64`, and with R, S, V decomposed from the
signature of the first input. -/
theorem GetTransactionByHash_send (lib : Lib) (client : ThetaTxRPC) (hashStr : String)
    (response : GetTransactionResponse) (raw : RawTransaction) (input : TxInput)
    (inputs : List TxInput) (output : TxOutput) (outputs : List TxOutput)
    (hd : lib.TxSend ≠ lib.TxSmartContract) (hr : client.GetTransaction hashStr = .ok response)
    (hty : response.Type_ = lib.TxSend) (htx : response.transaction = some raw)
    (hin : raw.asSendTx.Inputs = input :: inputs)
    (hout : raw.asSendTx.Outputs = output :: outputs)
    (hsig : 65 ≤ input.Signature.length) :
    ∃ out err, GetTransactionByHash lib client hashStr = .ret (out, err)
      ∧ out.From = input.Address ∧ out.To = output.Address
      ∧ (0 ≤ raw.asSendTx.Fee.TFuelWei → raw.asSendTx.Fee.TFuelWei < 2 ^ 64 →
          (out.Gas : Int) = raw.asSendTx.Fee.TFuelWei)
      ∧ (0 ≤ input.Coins.TFuelWei → input.Coins.TFuelWei < 2 ^ 64 →
          (out.Value : Int) = input.Coins.TFuelWei)
      ∧ out.R.bytes = input.Signature.take 32
      ∧ out.S.bytes = (input.Signature.drop 32).take 32
      ∧ (∃ v, input.Signature[64]? = some v ∧ out.V = v.val)
      ∧ out.BlockHash = response.BlockHash ∧ out.BlockHeight = response.BlockHeight
      ∧ out.TxHash = response.TxHash := by
  obtain ⟨mid, h1, h2, h3, h4, h5⟩ := translateSend_ok raw.asSendTx
    { EthGetTransactionResult.zero with
      BlockHash := response.BlockHash
      BlockHeight := response.BlockHeight
      TxHash := response.TxHash } input inputs output outputs hin hout hsig
  rw [GetTransactionByHash_send_eq lib client hashStr response raw hd hr hty htx, h1]
  refine ⟨_, _, rfl, ?_, ?_, ?_, ?_, h2, h3, h4, ?_, ?_, ?_⟩
  · show mid.From = _
    rw [h5]
  · show mid.To = _
    rw [h5]
  · intro h0 hlt
    show (mid.Gas : Int) = _
    rw [h5]
    exact bigUint64_of_fits _ h0 hlt
  · intro h0 hlt
    show (mid.Value : Int) = _
    rw [h5]
    exact bigUint64_of_fits _ h0 hlt
  · show mid.BlockHash = _
    rw [h5]
  · show mid.BlockHeight = _
    rw [h5]
  · show mid.TxHash = _
    rw [h5]

/-- C15, an instance: the transfer of 7 with fee 3 and the sample signature. -/
theorem GetTransactionByHash_send_witness :
    ∃ out err, GetTransactionByHash sampleLib (sampleClient 2 0 7 sampleSignature) "0x"
        = .ret (out, err)
      ∧ out.From = sampleAddress 1 ∧ out.To = sampleAddress 2
      ∧ (out.Gas : Int) = 3 ∧ (out.Value : Int) = 7 := by
  obtain ⟨out, err, h1, h2, h3, h4, h5, -⟩ := GetTransactionByHash_send sampleLib
    (sampleClient 2 0 7 sampleSignature) "0x" (sampleResponse 2 0 7 sampleSignature) _
    (sampleInput 7 sampleSignature) [] sampleOutput [] (by decide) rfl rfl rfl rfl rfl
    (by decide)
  exact ⟨out, err, h1, h2, h3, h4 (by decide) (by decide), h5 (by decide) (by decide)⟩

/-- C15, the counterexample: for the coin amount `2 ^ 64` the value returned is
0, not the coin amount; and for an empty signature the call panics and returns
no record. -/
theorem GetTransactionByHash_send_overflow :
    (∃ out err, GetTransactionByHash sampleLib
        (sampleClient 2 0 18446744073709551616 sampleSignature) "0x" = .ret (out, err)
      ∧ out.Value = 0 ∧ (out.Value : Int) ≠ 18446744073709551616)
    ∧ GetTransactionByHash sampleLib (sampleClient 2 0 7 []) "0x" = .panic .sliceOutOfRange := by
  refine ⟨⟨_, _, rfl, rfl, by decide⟩, rfl⟩

/-- C16, as amended: for a smart-contract transaction whose sender field
carries a signature of at least 65 bytes, `GetTransactionByHash` returns a
record with sender and recipient = the `From` and `To` addresses of the call,
gas = the gas limit, input = the call data, gas price = the declared gas price
and value = the coin amount of the sender whenever these are non-negative and
below `2 ^ 64`, and with R, S, V decomposed from the signature of the sender
field. -/
theorem GetTransactionByHash_smartContract (lib : Lib) (client : ThetaTxRPC)
    (hashStr : String) (response : GetTransactionResponse) (raw : RawTransaction)
    (hd : lib.TxSend ≠ lib.TxSmartContract) (hr : client.GetTransaction hashStr = .ok response)
    (hty : response.Type_ = lib.TxSmartContract) (htx : response.transaction = some raw)
    (hsig : 65 ≤ raw.asSmartContractTx.From.Signature.length) :
    ∃ out err, GetTransactionByHash lib client hashStr = .ret (out, err)
      ∧ out.From = raw.asSmartContractTx.From.Address
      ∧ out.To = raw.asSmartContractTx.To.Address
      ∧ out.Gas = raw.asSmartContractTx.GasLimit
      ∧ out.Input = raw.asSmartContractTx.Data
      ∧ (0 ≤ raw.asSmartContractTx.GasPrice → raw.asSmartContractTx.GasPrice < 2 ^ 64 →
          (out.GasPrice : Int) = raw.asSmartContractTx.GasPrice)
      ∧ (0 ≤ raw.asSmartContractTx.From.Coins.TFuelWei →
          raw.asSmartContractTx.From.Coins.TFuelWei < 2 ^ 64 →
          (out.Value : Int) = raw.asSmartContractTx.From.Coins.TFuelWei)
      ∧ out.R.bytes = raw.asSmartContractTx.From.Signature.take 32
      ∧ out.S.bytes = (raw.asSmartContractTx.From.Signature.drop 32).take 32
      ∧ (∃ v, raw.asSmartContractTx.From.Signature[64]? = some v ∧ out.V = v.val)
      ∧ out.BlockHash = response.BlockHash ∧ out.BlockHeight = response.BlockHeight
      ∧ out.TxHash = response.TxHash := by
  obtain ⟨mid, h1, h2, h3, h4, h5⟩ := GetRSVfromSignature_long
    raw.asSmartContractTx.From.Signature
    { EthGetTransactionResult.zero with
      BlockHash := response.BlockHash
      BlockHeight := response.BlockHeight
      TxHash := response.TxHash
      From := raw.asSmartContractTx.From.Address
      To := raw.asSmartContractTx.To.Address
      GasPrice := bigUint64 raw.asSmartContractTx.GasPrice
      Gas := raw.asSmartContractTx.GasLimit
      Value := bigUint64 raw.asSmartContractTx.From.Coins.TFuelWei
      Input := raw.asSmartContractTx.Data } hsig
  have ht : translateSmartContract raw.asSmartContractTx
      { EthGetTransactionResult.zero with
        BlockHash := response.BlockHash
        BlockHeight := response.BlockHeight
        TxHash := response.TxHash } = .ret mid := by
    unfold translateSmartContract
    simp only
    rw [h1]
    rfl
  rw [GetTransactionByHash_smartContract_eq lib client hashStr response raw hd hr hty htx, ht]
  refine ⟨_, _, rfl, ?_, ?_, ?_, ?_, ?_, ?_, h2, h3, h4, ?_, ?_, ?_⟩
  · show mid.From = _
    rw [h5]
  · show mid.To = _
    rw [h5]
  · show mid.Gas = _
    rw [h5]
  · show mid.Input = _
    rw [h5]
  · intro h0 hlt
    show (mid.GasPrice : Int) = _
    rw [h5]
    exact bigUint64_of_fits _ h0 hlt
  · intro h0 hlt
    show (mid.Value : Int) = _
    rw [h5]
    exact bigUint64_of_fits _ h0 hlt
  · show mid.BlockHash = _
    rw [h5]
  · show mid.BlockHeight = _
    rw [h5]
  · show mid.TxHash = _
    rw [h5]

/-- C16, an instance: the call with gas price 4, coin amount 7, gas limit 21000
and the sample signature. -/
theorem GetTransactionByHash_smartContract_witness :
    ∃ out err, GetTransactionByHash sampleLib (sampleClient 7 4 7 sampleSignature) "0x"
        = .ret (out, err)
      ∧ out.From = sampleAddress 1 ∧ out.To = sampleAddress 2 ∧ out.Gas = 21000
      ∧ out.Input = [1, 2] ∧ (out.GasPrice : Int) = 4 ∧ (out.Value : Int) = 7 := by
  obtain ⟨out, err, h1, h2, h3, h4, h5, h6, h7, -⟩ := GetTransactionByHash_smartContract
    sampleLib (sampleClient 7 4 7 sampleSignature) "0x" (sampleResponse 7 4 7 sampleSignature)
    _ (by decide) rfl rfl rfl (by decide)
  exact ⟨out, err, h1, h2, h3, h4, h5, h6 (by decide) (by decide), h7 (by decide) (by decide)⟩

/-- C16, the counterexample: for the gas price `2 ^ 64` and the coin amount
`2 ^ 64` the gas price and the value returned are 0; and for an empty signature
the call panics and returns no record. -/
theorem GetTransactionByHash_smartContract_overflow :
    (∃ out err, GetTransactionByHash sampleLib
        (sampleClient 7 18446744073709551616 18446744073709551616 sampleSignature) "0x"
          = .ret (out, err)
      ∧ out.GasPrice = 0 ∧ out.Value = 0
      ∧ (out.GasPrice : Int) ≠ 18446744073709551616
      ∧ (out.Value : Int) ≠ 18446744073709551616)
    ∧ GetTransactionByHash sampleLib (sampleClient 7 4 7 []) "0x"
        = .panic .sliceOutOfRange := by
  refine ⟨⟨_, _, rfl, rfl, rfl, by decide, by decide⟩, rfl⟩

/-- C19: for a native transaction whose kind is neither value-transfer nor
smart-contract, the record `GetTransactionByHash` returns is the zero record
with the block hash, the block height, the transaction hash and the index
looked up set: sender, recipient, gas, gas price, value, input, R, S and V
keep their zero values. -/
theorem GetTransactionByHash_other_kind (lib : Lib) (client : ThetaTxRPC) (hashStr : String)
    (response : GetTransactionResponse) (hr : client.GetTransaction hashStr = .ok response)
    (h1 : response.Type_ ≠ lib.TxSend) (h2 : response.Type_ ≠ lib.TxSmartContract) :
    ∃ out err, GetTransactionByHash lib client hashStr = .ret (out, err)
      ∧ out = { EthGetTransactionResult.zero with
          BlockHash := response.BlockHash
          BlockHeight := response.BlockHeight
          TxHash := response.TxHash
          TransactionIndex :=
            (GetTransactionIndex response.BlockHash response.TxHash client).1 }
      ∧ err = (GetTransactionIndex response.BlockHash response.TxHash client).2
      ∧ out.From = Address.zero ∧ out.To = Address.zero ∧ out.Gas = 0 ∧ out.GasPrice = 0
      ∧ out.Value = 0 ∧ out.Input = [] ∧ out.R = Hash.zero ∧ out.S = Hash.zero ∧ out.V = 0 := by
  refine ⟨_, _, ?_, rfl, rfl, rfl, rfl, rfl, rfl, rfl, rfl, rfl, rfl, rfl⟩
  simp only [GetTransactionByHash, hr, parse_other lib response h1 h2, translate, Exec.bind]

/-- C19, an instance: a transaction of kind 5 with a payload. -/
theorem GetTransactionByHash_other_kind_witness :
    ∃ out err, GetTransactionByHash sampleLib (sampleClient 5 4 7 sampleSignature) "0x"
        = .ret (out, err)
      ∧ out.From = Address.zero ∧ out.Value = 0 ∧ out.V = 0 ∧ out.TransactionIndex = 1 := by
  obtain ⟨out, err, h1, h2, -, h3, -, -, -, h4, -, -, -, h5⟩ := GetTransactionByHash_other_kind
    sampleLib (sampleClient 5 4 7 sampleSignature) "0x" (sampleResponse 5 4 7 sampleSignature)
    rfl (by decide) (by decide)
  exact ⟨out, err, h1, h3, h4, h5, by rw [h2]; rfl⟩

/-- C20: in the value-transfer branch `GetTransactionByHash` returns exactly
when the transaction has at least one input, at least one output and a
first-input signature of at least 65 bytes.  With an empty input list or an
empty output list the access to element 0 panics as out of range, and every
panic of the branch is an index or slice bound out of range. -/
theorem GetTransactionByHash_send_safety (lib : Lib) (client : ThetaTxRPC) (hashStr : String)
    (response : GetTransactionResponse) (raw : RawTransaction)
    (hd : lib.TxSend ≠ lib.TxSmartContract) (hr : client.GetTransaction hashStr = .ok response)
    (hty : response.Type_ = lib.TxSend) (htx : response.transaction = some raw) :
    ((∃ out err, GetTransactionByHash lib client hashStr = .ret (out, err))
      ↔ ∃ input inputs output outputs, raw.asSendTx.Inputs = input :: inputs
          ∧ raw.asSendTx.Outputs = output :: outputs ∧ 65 ≤ input.Signature.length)
    ∧ (raw.asSendTx.Inputs = [] →
        GetTransactionByHash lib client hashStr = .panic .indexOutOfRange)
    ∧ (raw.asSendTx.Outputs = [] →
        GetTransactionByHash lib client hashStr = .panic .indexOutOfRange)
    ∧ (∀ p, GetTransactionByHash lib client hashStr = .panic p →
        p = .indexOutOfRange ∨ p = .sliceOutOfRange) := by
  rw [GetTransactionByHash_send_eq lib client hashStr response raw hd hr hty htx]
  cases hin : raw.asSendTx.Inputs with
  | nil =>
    have ht : ∀ result, translateSend raw.asSendTx result = .panic .indexOutOfRange := by
      intro result
      simp [translateSend, indexAt, hin, Exec.bind]
    simp only [ht, Exec.bind]
    refine ⟨⟨fun h => ?_, fun h => ?_⟩, fun _ => trivial, fun _ => trivial, fun p h => ?_⟩
    · obtain ⟨out, err, h⟩ := h
      simp at h
    · obtain ⟨input, inputs, output, outputs, h, -⟩ := h
      simp at h
    · simp only [Exec.panic.injEq] at h
      exact Or.inl h.symm
  | cons input inputs =>
    cases hout : raw.asSendTx.Outputs with
    | nil =>
      have ht : ∀ result, translateSend raw.asSendTx result = .panic .indexOutOfRange := by
        intro result
        simp [translateSend, indexAt, hin, hout, Exec.bind]
      simp only [ht, Exec.bind]
      refine ⟨⟨fun h => ?_, fun h => ?_⟩, fun h => by simp at h, fun _ => trivial, fun p h => ?_⟩
      · obtain ⟨out, err, h⟩ := h
        simp at h
      · obtain ⟨i2, is2, output, outputs, -, h, -⟩ := h
        simp at h
      · simp only [Exec.panic.injEq] at h
        exact Or.inl h.symm
    | cons output outputs =>
      by_cases hsig : 65 ≤ input.Signature.length
      · obtain ⟨mid, h1, -⟩ := translateSend_ok raw.asSendTx
          { EthGetTransactionResult.zero with
            BlockHash := response.BlockHash
            BlockHeight := response.BlockHeight
            TxHash := response.TxHash } input inputs output outputs hin hout hsig
        rw [h1]
        simp only [Exec.bind]
        refine ⟨⟨fun _ => ⟨input, inputs, output, outputs, rfl, rfl, hsig⟩,
          fun _ => ⟨_, _, rfl⟩⟩, fun h => by simp at h, fun h => by simp at h,
          fun p h => by simp at h⟩
      · have hshort : input.Signature.length < 65 := by omega
        have hp : ∀ result, translateSend raw.asSendTx result = .panic .sliceOutOfRange
            ∨ translateSend raw.asSendTx result = .panic .indexOutOfRange := by
          intro result
          rw [translateSend_eq raw.asSendTx result input inputs output outputs hin hout]
          rcases GetRSVfromSignature_panic_kind input.Signature
            { result with
              From := input.Address
              To := output.Address
              Gas := bigUint64 raw.asSendTx.Fee.TFuelWei
              Value := bigUint64 input.Coins.TFuelWei } hshort with h | h
          · left; rw [h]; rfl
          · right; rw [h]; rfl
        refine ⟨⟨fun h => ?_, fun h => ?_⟩, fun h => by simp at h, fun h => by simp at h,
          fun p h => ?_⟩
        · obtain ⟨out, err, h⟩ := h
          rcases hp _ with h2 | h2 <;> rw [h2] at h <;> simp [Exec.bind] at h
        · obtain ⟨i2, is2, o2, os2, h1, -, h3⟩ := h
          simp only [List.cons.injEq] at h1
          rw [← h1.1] at h3
          omega
        · rcases hp _ with h2 | h2 <;> rw [h2] at h <;>
            simp only [Exec.bind, Exec.panic.injEq] at h
          · exact Or.inr h.symm
          · exact Or.inl h.symm

/-- C20, an instance: with the sample signature the value-transfer call
returns, and with an empty input list it panics on the access to element 0. -/
theorem GetTransactionByHash_send_safety_witness :
    (∃ out err, GetTransactionByHash sampleLib (sampleClient 2 0 7 sampleSignature) "0x"
        = .ret (out, err))
    ∧ GetTransactionByHash sampleLib
        ⟨fun _ => .ok ⟨sampleHash 3, 10, sampleHash 2, 2,
          some ⟨⟨⟨0, 3⟩, [], [sampleOutput]⟩, sampleSmartContractTx 0 0 []⟩⟩,
          fun _ => .ok none⟩ "0x" = .panic .indexOutOfRange :=
  ⟨(GetTransactionByHash_send_safety sampleLib (sampleClient 2 0 7 sampleSignature) "0x"
      (sampleResponse 2 0 7 sampleSignature) _ (by decide) rfl rfl rfl).1.mpr
      ⟨sampleInput 7 sampleSignature, [], sampleOutput, [], rfl, rfl, by decide⟩,
    (GetTransactionByHash_send_safety sampleLib _ "0x"
      ⟨sampleHash 3, 10, sampleHash 2, 2,
        some ⟨⟨⟨0, 3⟩, [], [sampleOutput]⟩, sampleSmartContractTx 0 0 []⟩⟩ _
      (by decide) rfl rfl rfl).2.1 rfl⟩

end Ethrpc
